import Mathlib

/-!
Verification of the stop-sequence consolidation engine of a GTFS reporting
tool.  The Rust source keeps per-group graphs in ordered maps
(std BTreeMap / BTreeSet); we embed those as association lists sorted by
key, with first-match lookup semantics.  Stop instances are identified by
their address (the PtrKey of the shared Arc<Stop>); we model an address as
a natural number, so a trip's stop-visit sequence is a list of naturals and
node identity is equality of those numbers.
-/

namespace GtfsUtils

variable {K : Type} {α : Type}

/-- Lookup in an association list: first entry whose key matches
(BTreeMap::get on a map with distinct keys). -/
def mapLookup [LinearOrder K] : List (K × α) → K → Option α
  | [], _ => none
  | p :: rest, key => if p.1 = key then some p.2 else mapLookup rest key

/-- Ordered insert (BTreeMap::insert): place the binding at its sorted
position, replacing an existing binding with the same key. -/
def mapInsert [LinearOrder K] (key : K) (val : α) : List (K × α) → List (K × α)
  | [] => [(key, val)]
  | p :: rest =>
    if key < p.1 then (key, val) :: p :: rest
    else if key = p.1 then (key, val) :: rest
    else p :: mapInsert key val rest

/-- In-place update of the first binding for a key, if any
(the effect of mutating through BTreeMap::get_mut / Entry::get_mut). -/
def mapAdjust [LinearOrder K] (key : K) (f : α → α) : List (K × α) → List (K × α)
  | [] => []
  | p :: rest => if p.1 = key then (p.1, f p.2) :: rest else p :: mapAdjust key f rest

/-- Removal of the first binding for a key (BTreeMap::remove /
Entry::remove_entry on a map with distinct keys). -/
def mapErase [LinearOrder K] (key : K) : List (K × α) → List (K × α)
  | [] => []
  | p :: rest => if p.1 = key then rest else p :: mapErase key rest

/-- Keys of an association list, in list order. -/
def mapKeys (l : List (K × α)) : List K := l.map Prod.fst

@[simp] theorem mapKeys_nil : mapKeys ([] : List (K × α)) = [] := rfl

@[simp] theorem mapKeys_cons (p : K × α) (l : List (K × α)) :
    mapKeys (p :: l) = p.1 :: mapKeys l := rfl

/-- Ordered insert into a sorted duplicate-free list (BTreeSet::insert). -/
def setInsert [LinearOrder K] (x : K) : List K → List K
  | [] => [x]
  | y :: rest =>
    if x < y then x :: y :: rest
    else if x = y then y :: rest
    else y :: setInsert x rest

/-- Removal from a set, reporting whether the element was present
(BTreeSet::remove). -/
def setRemove [LinearOrder K] (x : K) : List K → List K × Bool
  | [] => ([], false)
  | y :: rest =>
    if x = y then (rest, true)
    else
      let r := setRemove x rest
      (y :: r.1, r.2)

section MapLemmas

theorem mapLookup_eq_none_iff [LinearOrder K] {l : List (K × α)} {k : K} :
    mapLookup l k = none ↔ k ∉ mapKeys l := by
  induction l with
  | nil => simp [mapLookup]
  | cons p rest ih =>
    simp only [mapLookup, mapKeys_cons, List.mem_cons]
    by_cases h : p.1 = k
    · subst h; simp
    · rw [if_neg h, ih]
      constructor
      · intro hn hc
        rcases hc with rfl | hc
        · exact h rfl
        · exact hn hc
      · intro hn hc
        exact hn (Or.inr hc)

theorem mapLookup_isSome_iff [LinearOrder K] {l : List (K × α)} {k : K} :
    (mapLookup l k).isSome = true ↔ k ∈ mapKeys l := by
  constructor
  · intro h
    by_contra hc
    rw [← mapLookup_eq_none_iff] at hc
    rw [hc] at h
    simp at h
  · intro h
    cases hml : mapLookup l k with
    | none => exact absurd (mapLookup_eq_none_iff.1 hml) (not_not_intro h)
    | some v => simp

theorem mapLookup_mem [LinearOrder K] {l : List (K × α)} {k : K} {v : α}
    (h : mapLookup l k = some v) : (k, v) ∈ l := by
  induction l with
  | nil => simp [mapLookup] at h
  | cons p rest ih =>
    simp only [mapLookup] at h
    by_cases hk : p.1 = k
    · rw [if_pos hk] at h
      injection h with h
      have hp : p = (k, v) := by
        cases p
        simp only [Prod.mk.injEq]
        exact ⟨hk, h⟩
      rw [← hp]
      exact List.mem_cons_self _ _
    · rw [if_neg hk] at h
      exact List.mem_cons_of_mem _ (ih h)

theorem mapKeys_mapInsert [LinearOrder K] {l : List (K × α)} {k : K} {v : α} (k' : K) :
    k' ∈ mapKeys (mapInsert k v l) ↔ k' = k ∨ k' ∈ mapKeys l := by
  induction l with
  | nil => simp [mapInsert]
  | cons p rest ih =>
    by_cases h1 : k < p.1
    · simp only [mapInsert, if_pos h1, mapKeys_cons, List.mem_cons]
    · by_cases h2 : k = p.1
      · have e : mapInsert k v (p :: rest) = (k, v) :: rest := by
          simp only [mapInsert, if_neg h1, if_pos h2]
        rw [e, mapKeys_cons, mapKeys_cons, List.mem_cons, List.mem_cons]
        subst h2
        tauto
      · have e : mapInsert k v (p :: rest) = p :: mapInsert k v rest := by
          simp only [mapInsert, if_neg h1, if_neg h2]
        rw [e, mapKeys_cons, mapKeys_cons, List.mem_cons, List.mem_cons, ih]
        tauto

theorem mapKeys_sorted_mapInsert [LinearOrder K] {l : List (K × α)} {k : K} {v : α}
    (hs : (mapKeys l).Pairwise (· < ·)) :
    (mapKeys (mapInsert k v l)).Pairwise (· < ·) := by
  induction l with
  | nil => simp [mapInsert]
  | cons p rest ih =>
    rw [mapKeys_cons, List.pairwise_cons] at hs
    by_cases h1 : k < p.1
    · simp only [mapInsert, if_pos h1, mapKeys_cons]
      refine List.Pairwise.cons ?_ (List.Pairwise.cons hs.1 hs.2)
      intro b hb
      rcases List.mem_cons.1 hb with rfl | hb
      · exact h1
      · exact h1.trans (hs.1 b hb)
    · by_cases h2 : k = p.1
      · subst h2
        simp only [mapInsert, if_neg h1, if_pos rfl, mapKeys_cons]
        exact List.Pairwise.cons hs.1 hs.2
      · simp only [mapInsert, if_neg h1, if_neg h2, mapKeys_cons]
        refine List.Pairwise.cons ?_ (ih hs.2)
        intro b hb
        rcases (mapKeys_mapInsert b).1 hb with rfl | hb
        · exact lt_of_le_of_ne (not_lt.1 h1) (fun hh => h2 hh.symm)
        · exact hs.1 b hb

theorem mapLookup_mapInsert [LinearOrder K] {l : List (K × α)} {k : K} {v : α} (k' : K)
    (hs : (mapKeys l).Pairwise (· < ·)) :
    mapLookup (mapInsert k v l) k' = if k' = k then some v else mapLookup l k' := by
  induction l with
  | nil =>
    simp only [mapInsert, mapLookup]
    by_cases h : k' = k
    · subst h; simp
    · rw [if_neg (fun hh : k = k' => h hh.symm), if_neg h]
  | cons p rest ih =>
    rw [mapKeys_cons, List.pairwise_cons] at hs
    by_cases h1 : k < p.1
    · have e : mapInsert k v (p :: rest) = (k, v) :: p :: rest := by
        simp only [mapInsert, if_pos h1]
      rw [e]
      simp only [mapLookup]
      by_cases h : k' = k
      · subst h; simp
      · rw [if_neg (fun hh : k = k' => h hh.symm), if_neg h]
    · by_cases h2 : k = p.1
      · have e : mapInsert k v (p :: rest) = (k, v) :: rest := by
          simp only [mapInsert, if_neg h1, if_pos h2]
        rw [e]
        simp only [mapLookup]
        by_cases h : k' = k
        · subst h; simp [h2.symm]
        · rw [if_neg (fun hh : k = k' => h hh.symm), if_neg h,
            if_neg (fun hh : p.1 = k' => h (hh.symm.trans h2.symm))]
      · have e : mapInsert k v (p :: rest) = p :: mapInsert k v rest := by
          simp only [mapInsert, if_neg h1, if_neg h2]
        rw [e]
        simp only [mapLookup]
        by_cases hp : p.1 = k'
        · rw [if_pos hp, if_pos hp,
            if_neg (fun hh : k' = k => h2 (hh ▸ hp).symm)]
        · rw [if_neg hp, if_neg hp, ih hs.2]

theorem mapKeys_mapAdjust [LinearOrder K] {l : List (K × α)} {k : K} {f : α → α} :
    mapKeys (mapAdjust k f l) = mapKeys l := by
  induction l with
  | nil => rfl
  | cons p rest ih =>
    by_cases h : p.1 = k
    · simp only [mapAdjust, if_pos h, mapKeys_cons]
    · simp only [mapAdjust, if_neg h, mapKeys_cons, ih]

theorem mapLookup_mapAdjust [LinearOrder K] {l : List (K × α)} {k : K} {f : α → α}
    (k' : K) :
    mapLookup (mapAdjust k f l) k' =
      if k' = k then (mapLookup l k).map f else mapLookup l k' := by
  induction l with
  | nil => by_cases h : k' = k <;> simp [mapAdjust, mapLookup, h]
  | cons p rest ih =>
    by_cases h : p.1 = k
    · simp only [mapAdjust, if_pos h, mapLookup]
      by_cases h' : k' = k
      · subst h'; simp [h]
      · rw [if_neg (fun hh : p.1 = k' => h' (hh.symm.trans h)), if_neg h',
          if_neg (fun hh : p.1 = k' => h' (hh.symm.trans h))]
    · simp only [mapAdjust, if_neg h, mapLookup]
      by_cases hp : p.1 = k'
      · rw [if_pos hp, if_pos hp, if_neg (fun hh : k' = k => h (hp.trans hh))]
      · rw [if_neg hp, if_neg hp, ih]

theorem mapErase_sublist [LinearOrder K] {l : List (K × α)} {k : K} :
    (mapErase k l).Sublist l := by
  induction l with
  | nil => simp [mapErase]
  | cons p rest ih =>
    by_cases h : p.1 = k
    · simp only [mapErase, if_pos h]
      exact List.sublist_cons_self _ _
    · simp only [mapErase, if_neg h]
      exact ih.cons₂ _

theorem perm_mapErase [LinearOrder K] {l : List (K × α)} {k : K} {v : α}
    (h : mapLookup l k = some v) : l.Perm ((k, v) :: mapErase k l) := by
  induction l with
  | nil => simp [mapLookup] at h
  | cons p rest ih =>
    simp only [mapLookup] at h
    by_cases hp : p.1 = k
    · rw [if_pos hp] at h
      injection h with h
      have : p = (k, v) := by
        cases p
        simp only [Prod.mk.injEq]
        exact ⟨hp, h⟩
      subst this
      simp only [mapErase, if_pos hp]
      exact List.Perm.refl _
    · rw [if_neg hp] at h
      simp only [mapErase, if_neg hp]
      exact ((ih h).cons p).trans (List.Perm.swap _ _ _)

theorem mapLookup_mapErase [LinearOrder K] {l : List (K × α)} {k : K}
    (hn : (mapKeys l).Nodup) (k' : K) :
    mapLookup (mapErase k l) k' = if k' = k then none else mapLookup l k' := by
  induction l with
  | nil => by_cases h : k' = k <;> simp [mapErase, mapLookup, h]
  | cons p rest ih =>
    rw [mapKeys_cons, List.nodup_cons] at hn
    by_cases hp : p.1 = k
    · simp only [mapErase, if_pos hp, mapLookup]
      by_cases h' : k' = k
      · subst h'
        rw [if_pos rfl, mapLookup_eq_none_iff]
        rw [hp] at hn
        exact hn.1
      · rw [if_neg h', if_neg (fun hh : p.1 = k' => h' (hh.symm.trans hp))]
    · simp only [mapErase, if_neg hp, mapLookup]
      by_cases hpk : p.1 = k'
      · rw [if_pos hpk, if_pos hpk, if_neg (fun hh : k' = k => hp (hpk.trans hh))]
      · rw [if_neg hpk, if_neg hpk, ih hn.2]

theorem mem_setInsert [LinearOrder K] {x x' : K} {l : List K} :
    x' ∈ setInsert x l ↔ x' = x ∨ x' ∈ l := by
  induction l with
  | nil => simp [setInsert]
  | cons y rest ih =>
    by_cases h1 : x < y
    · simp only [setInsert, if_pos h1, List.mem_cons]
    · by_cases h2 : x = y
      · have e : setInsert x (y :: rest) = y :: rest := by
          simp only [setInsert, if_neg h1, if_pos h2]
        rw [e, List.mem_cons]
        subst h2
        tauto
      · have e : setInsert x (y :: rest) = y :: setInsert x rest := by
          simp only [setInsert, if_neg h1, if_neg h2]
        rw [e]
        simp only [List.mem_cons, ih]
        tauto

theorem sorted_setInsert [LinearOrder K] {x : K} {l : List K}
    (hs : l.Pairwise (· < ·)) : (setInsert x l).Pairwise (· < ·) := by
  induction l with
  | nil => simp [setInsert]
  | cons y rest ih =>
    rw [List.pairwise_cons] at hs
    by_cases h1 : x < y
    · simp only [setInsert, if_pos h1]
      refine List.Pairwise.cons ?_ (List.Pairwise.cons hs.1 hs.2)
      intro b hb
      rcases List.mem_cons.1 hb with rfl | hb
      · exact h1
      · exact h1.trans (hs.1 b hb)
    · by_cases h2 : x = y
      · have e : setInsert x (y :: rest) = y :: rest := by
          simp only [setInsert, if_neg h1, if_pos h2]
        rw [e]
        exact List.Pairwise.cons hs.1 hs.2
      · have e : setInsert x (y :: rest) = y :: setInsert x rest := by
          simp only [setInsert, if_neg h1, if_neg h2]
        rw [e]
        refine List.Pairwise.cons ?_ (ih hs.2)
        intro b hb
        rcases mem_setInsert.1 hb with rfl | hb
        · exact lt_of_le_of_ne (not_lt.1 h1) (fun hh => h2 hh.symm)
        · exact hs.1 b hb

theorem setRemove_fst_sublist [LinearOrder K] {x : K} {l : List K} :
    (setRemove x l).1.Sublist l := by
  induction l with
  | nil => simp [setRemove]
  | cons y rest ih =>
    by_cases h : x = y
    · simp only [setRemove, if_pos h]
      exact List.sublist_cons_self _ _
    · simp only [setRemove, if_neg h]
      exact ih.cons₂ _

theorem setRemove_snd_iff [LinearOrder K] {x : K} {l : List K} :
    (setRemove x l).2 = true ↔ x ∈ l := by
  induction l with
  | nil => simp [setRemove]
  | cons y rest ih =>
    by_cases h : x = y
    · simp [setRemove, h]
    · simp only [setRemove, if_neg h, List.mem_cons, ih]
      tauto

theorem perm_setRemove [LinearOrder K] {x : K} {l : List K} (h : x ∈ l) :
    l.Perm (x :: (setRemove x l).1) := by
  induction l with
  | nil => simp at h
  | cons y rest ih =>
    by_cases hx : x = y
    · subst hx
      simp only [setRemove, if_pos rfl]
      exact List.Perm.refl _
    · rcases List.mem_cons.1 h with rfl | hmem
      · exact absurd rfl hx
      · simp only [setRemove, if_neg hx]
        exact ((ih hmem).cons y).trans (List.Perm.swap _ _ _)

theorem mem_setRemove_of_nodup [LinearOrder K] {x y : K} {l : List K}
    (hn : l.Nodup) : y ∈ (setRemove x l).1 ↔ y ∈ l ∧ y ≠ x := by
  induction l with
  | nil => simp [setRemove]
  | cons z rest ih =>
    rw [List.nodup_cons] at hn
    by_cases h : x = z
    · subst h
      simp only [setRemove, if_pos rfl, List.mem_cons]
      constructor
      · intro hy
        exact ⟨Or.inr hy, fun hh => hn.1 (hh ▸ hy)⟩
      · rintro ⟨rfl | hy, hne⟩
        · exact absurd rfl hne
        · exact hy
    · simp only [setRemove, if_neg h, List.mem_cons, ih hn.2]
      constructor
      · rintro (rfl | ⟨hy, hne⟩)
        · exact ⟨Or.inl rfl, fun hh => h hh.symm⟩
        · exact ⟨Or.inr hy, hne⟩
      · rintro ⟨rfl | hy, hne⟩
        · exact Or.inl rfl
        · exact Or.inr ⟨hy, hne⟩

theorem sorted_nodup [LinearOrder K] {l : List K}
    (hs : l.Pairwise (· < ·)) : l.Nodup :=
  hs.imp ne_of_lt

end MapLemmas

/-!
The identity-keyed directed graph of src/merge/dag.rs.  In the source the
key type is PtrKey<Stop> (the raw address of the shared Arc<Stop>) and the
value type is Arc<Stop>; distinct live stop instances have distinct
addresses, and the key of a value is the address itself, so we collapse
both to a natural number: Node.value coincides with the node's key.
-/

/-- Graph node (struct Node in src/merge/dag.rs): the owned stop value and
the BTreeSets of parent and child keys. -/
structure Node where
  value : Nat
  parents : List Nat
  children : List Nat
deriving DecidableEq

/-- Node::new. -/
def Node.new (value : Nat) : Node := ⟨value, [], []⟩

/-- Node::add_parent (BTreeSet::insert into parents). -/
def Node.add_parent (n : Node) (parent : Nat) : Node :=
  { n with parents := setInsert parent n.parents }

/-- Node::remove_parent (BTreeSet::remove, reporting presence). -/
def Node.remove_parent (n : Node) (parent : Nat) : Node × Bool :=
  let r := setRemove parent n.parents
  ({ n with parents := r.1 }, r.2)

/-- Node::add_child (BTreeSet::insert into children). -/
def Node.add_child (n : Node) (child : Nat) : Node :=
  { n with children := setInsert child n.children }

/-- Dag (struct Dag in src/merge/dag.rs): nodes keyed by stop address in a
BTreeMap, embedded as a key-sorted association list. -/
abbrev Dag := List (Nat × Node)

/-- Dag::new. -/
def Dag.new : Dag := []

/-- Entry::or_insert_with(|| Node::new(child)): keep the existing node for
the key or insert a fresh one. -/
def Dag.ensure (d : Dag) (child : Nat) : Dag :=
  if (mapLookup d child).isSome then d else mapInsert child (Node.new child) d

/-- Node stored for a key after Dag.ensure ran for it. -/
def Dag.nodeAt (d : Dag) (child : Nat) : Node :=
  (mapLookup d child).getD (Node.new child)

/-- Dag::insert_child.  Returns the updated graph together with a success
flag (the Ok/Err of the Rust Result); on Err the mutations already made
are kept, as in the source, where self is mutated in place before the
failing parent lookup. -/
def Dag.insert_child (d : Dag) (parent : Option Nat) (child : Nat) : Dag × Bool :=
  let d1 : Dag := d.ensure child
  match parent with
  | none => (d1, true)
  | some p =>
    let d2 : Dag := mapAdjust child (fun n => n.add_parent p) d1
    if (mapLookup d2 p).isSome then
      (mapAdjust p (fun n => n.add_child child) d2, true)
    else (d2, false)

/-- Result of flatten / merge_trips.  ok is the consolidated stop list;
err carries the anyhow error (cycle, or the missing-parent error of
insert_child propagated by merge_trips); panicked marks the two panic!
branches inside flatten; outOfFuel is an artifact of embedding the Rust
while-loop with explicit fuel and is proved unreachable below. -/
inductive MergeErr
  | cycle
  | parentNotFound
deriving DecidableEq

inductive MergeResult
  | ok (stops : List Nat)
  | err (e : MergeErr)
  | panicked
  | outOfFuel
deriving DecidableEq

/-- Body of the for-loop over node.children in Dag::flatten: each child
must be in tails and must record the emitted head as parent (else panic,
modelled as none); a child whose parent set empties moves to heads. -/
def processChildren (idx : Nat) :
    List Nat → List (Nat × Node) → Dag → Option (List (Nat × Node) × Dag)
  | [], heads, tails => some (heads, tails)
  | ch :: rest, heads, tails =>
    match mapLookup tails ch with
    | none => none
    | some node =>
      let r := node.remove_parent idx
      if r.2 = false then none
      else if r.1.parents.isEmpty then
        processChildren idx rest ((ch, r.1) :: heads) (mapErase ch tails)
      else
        processChildren idx rest heads (mapAdjust ch (fun _ => r.1) tails)

/-- While-loop of Dag::flatten.  heads is the Vec used as a stack, with
its top (the most recently pushed entry) at the front of the list. -/
def flattenLoop : Nat → List (Nat × Node) → Dag → List Nat → MergeResult
  | 0, _, _, _ => .outOfFuel
  | _ + 1, [], tails, output =>
    if tails.isEmpty then .ok output else .err .cycle
  | fuel + 1, (idx, node) :: heads, tails, output =>
    match processChildren idx node.children heads tails with
    | none => .panicked
    | some (h2, t2) => flattenLoop fuel h2 t2 (output ++ [node.value])

/-- Dag::flatten.  Nodes are iterated in ascending key order to split
into heads (no parents) and tails; since the Vec is popped from its end,
the initial stack is the reversed ascending list of parentless nodes. -/
def Dag.flatten (d : Dag) : MergeResult :=
  let heads := (d.filter (fun p => p.2.parents.isEmpty)).reverse
  let tails : Dag := d.filter (fun p => !p.2.parents.isEmpty)
  flattenLoop (2 * d.length + 1) heads tails []

/-- Inner loop of merge_trips (src/merge.rs): walk one trip's stop_times,
inserting each stop with the previous stop as parent; the first stop of a
trip is inserted with parent None.  The ? on insert_child aborts at the
first error. -/
def insertTripStops : Dag → Option Nat → List Nat → Dag × Bool
  | d, _, [] => (d, true)
  | d, parent, st :: rest =>
    let r := d.insert_child parent st
    if r.2 then insertTripStops r.1 (some st) rest else (r.1, false)

/-- Graph construction of merge_trips over all trips of one group. -/
def buildDag : Dag → List (List Nat) → Dag × Bool
  | d, [] => (d, true)
  | d, trip :: rest =>
    let r := insertTripStops d none trip
    if r.2 then buildDag r.1 rest else (r.1, false)

/-- merge_trips (src/merge.rs): build the dag from the group's trips and
flatten it.  A trip is its list of stop addresses (st.stop per stop_time). -/
def mergeTrips (trips : List (List Nat)) : MergeResult :=
  let r := buildDag Dag.new trips
  if r.2 then r.1.flatten else .err .parentNotFound

/-- Graphs reachable from Dag::new by insert_child calls that all
returned Ok. -/
inductive Reachable : Dag → Prop
  | empty : Reachable Dag.new
  | step {d d' : Dag} {p : Option Nat} {c : Nat} :
      Reachable d → d.insert_child p c = (d', true) → Reachable d'

/-- Edge recorded in the graph: b is registered as a child of a. -/
def EdgeTo (d : Dag) (a b : Nat) : Prop :=
  ∃ n, mapLookup d a = some n ∧ b ∈ n.children

/-- Recorded parent relation: a is registered as a parent of b. -/
def ParentOf (d : Dag) (a b : Nat) : Prop :=
  ∃ n, mapLookup d b = some n ∧ a ∈ n.parents

/-- Directed cycle along recorded child edges. -/
def Dag.HasCycle (d : Dag) : Prop :=
  ∃ k, Relation.TransGen (EdgeTo d) k k

/-- Structural invariant of graphs built through successful insert_child
calls: keys sorted and distinct, each node's value is its own key, parent
and child sets sorted, and the parent and child records of any edge agree
(symmetric and closed: each names only existing nodes). -/
structure Dag.WellFormed (d : Dag) : Prop where
  sorted : (mapKeys d).Pairwise (· < ·)
  valueEq : ∀ q ∈ d, q.2.value = q.1
  setsSorted : ∀ q ∈ d, q.2.parents.Pairwise (· < ·) ∧ q.2.children.Pairwise (· < ·)
  sym1 : ∀ a b, EdgeTo d a b → ParentOf d a b
  sym2 : ∀ a b, ParentOf d a b → EdgeTo d a b

theorem mapLookup_of_mem_nodup {l : List (Nat × Node)} {k : Nat} {v : Node}
    (hmem : (k, v) ∈ l) (hn : (mapKeys l).Nodup) : mapLookup l k = some v := by
  induction l with
  | nil => simp at hmem
  | cons p rest ih =>
    rw [mapKeys_cons, List.nodup_cons] at hn
    rcases List.mem_cons.1 hmem with rfl | hmem
    · simp [mapLookup]
    · have hk : k ∈ mapKeys rest := List.mem_map_of_mem Prod.fst hmem
      have hne : p.1 ≠ k := fun hh => hn.1 (hh ▸ hk)
      rw [mapLookup, if_neg hne]
      exact ih hmem hn.2

theorem lookup_ensure {d : Dag} (hs : (mapKeys d).Pairwise (· < ·)) (c k : Nat) :
    mapLookup (d.ensure c) k = if k = c then some (d.nodeAt c) else mapLookup d k := by
  unfold Dag.ensure Dag.nodeAt
  cases hc : mapLookup d c with
  | some n =>
    by_cases h : k = c
    · subst h; simp [hc]
    · simp [hc, h]
  | none =>
    by_cases h : k = c
    · subst h; simp [hc, mapLookup_mapInsert k hs]
    · simp [hc, h, mapLookup_mapInsert k hs]

theorem sorted_ensure {d : Dag} (hs : (mapKeys d).Pairwise (· < ·)) (c : Nat) :
    (mapKeys (d.ensure c)).Pairwise (· < ·) := by
  unfold Dag.ensure
  split
  · exact hs
  · exact mapKeys_sorted_mapInsert hs

theorem mem_keys_ensure {d : Dag} (c k : Nat) :
    k ∈ mapKeys (d.ensure c) ↔ k = c ∨ k ∈ mapKeys d := by
  unfold Dag.ensure
  split
  · rename_i h
    constructor
    · exact Or.inr
    · rintro (rfl | hk)
      · exact mapLookup_isSome_iff.1 h
      · exact hk
  · exact mapKeys_mapInsert k

theorem lookup_adjust_child {d : Dag} (hs : (mapKeys d).Pairwise (· < ·)) (p c k : Nat) :
    mapLookup (mapAdjust c (fun n => n.add_parent p) (d.ensure c)) k =
      if k = c then some ((d.nodeAt c).add_parent p) else mapLookup d k := by
  rw [mapLookup_mapAdjust k]
  by_cases h : k = c
  · subst h
    rw [if_pos rfl, if_pos rfl, lookup_ensure hs, if_pos rfl]
    rfl
  · rw [if_neg h, if_neg h, lookup_ensure hs, if_neg h]

theorem insert_child_some_flag {d : Dag} (hs : (mapKeys d).Pairwise (· < ·)) (p c : Nat) :
    (d.insert_child (some p) c).2 = (decide (p = c) || (mapLookup d p).isSome) := by
  simp only [Dag.insert_child]
  rw [lookup_adjust_child hs]
  by_cases hpc : p = c
  · rw [if_pos hpc]
    simp [hpc]
  · rw [if_neg hpc]
    cases hdp : mapLookup d p <;> simp [hpc]

theorem insert_child_some_fst_child {d : Dag} (hs : (mapKeys d).Pairwise (· < ·))
    {p c : Nat} (hpc : p ≠ c) :
    mapLookup (d.insert_child (some p) c).1 c = some ((d.nodeAt c).add_parent p) := by
  simp only [Dag.insert_child]
  split
  · rw [mapLookup_mapAdjust c, if_neg (fun hh : c = p => hpc hh.symm),
      lookup_adjust_child hs, if_pos rfl]
  · rw [lookup_adjust_child hs, if_pos rfl]

theorem insert_child_some_fst_parent {d : Dag} (hs : (mapKeys d).Pairwise (· < ·))
    {p c : Nat} (hpc : p ≠ c) {np : Node} (hp : mapLookup d p = some np) :
    (d.insert_child (some p) c).2 = true ∧
      mapLookup (d.insert_child (some p) c).1 p = some (np.add_child c) := by
  constructor
  · rw [insert_child_some_flag hs]
    simp [hp]
  · simp only [Dag.insert_child]
    have hl : mapLookup (mapAdjust c (fun n => n.add_parent p) (d.ensure c)) p
        = some np := by
      rw [lookup_adjust_child hs, if_neg hpc, hp]
    rw [hl]
    simp only [Option.isSome_some, if_true]
    rw [mapLookup_mapAdjust p, if_pos rfl, hl]
    rfl

theorem insert_child_some_fst_other {d : Dag} (hs : (mapKeys d).Pairwise (· < ·))
    {p c k : Nat} (hkc : k ≠ c) (hkp : k ≠ p) :
    mapLookup (d.insert_child (some p) c).1 k = mapLookup d k := by
  simp only [Dag.insert_child]
  split
  · rw [mapLookup_mapAdjust k, if_neg hkp, lookup_adjust_child hs, if_neg hkc]
  · rw [lookup_adjust_child hs, if_neg hkc]

theorem insert_child_self {d : Dag} (hs : (mapKeys d).Pairwise (· < ·)) (c : Nat) :
    (d.insert_child (some c) c).2 = true ∧
      mapLookup (d.insert_child (some c) c).1 c
        = some (((d.nodeAt c).add_parent c).add_child c) := by
  have hl : mapLookup (mapAdjust c (fun n => n.add_parent c) (d.ensure c)) c
      = some ((d.nodeAt c).add_parent c) := by
    rw [lookup_adjust_child hs, if_pos rfl]
  constructor
  · rw [insert_child_some_flag hs]
    simp
  · simp only [Dag.insert_child]
    rw [hl]
    simp only [Option.isSome_some, if_true]
    rw [mapLookup_mapAdjust c, if_pos rfl, hl]
    rfl

theorem insert_child_sorted {d : Dag} (hs : (mapKeys d).Pairwise (· < ·))
    (parent : Option Nat) (c : Nat) :
    (mapKeys (d.insert_child parent c).1).Pairwise (· < ·) := by
  cases parent with
  | none => exact sorted_ensure hs c
  | some p =>
    simp only [Dag.insert_child]
    split
    · simp only [mapKeys_mapAdjust]
      exact sorted_ensure hs c
    · simp only [mapKeys_mapAdjust]
      exact sorted_ensure hs c

theorem insert_child_keys {d : Dag} (parent : Option Nat) (c k : Nat) :
    k ∈ mapKeys (d.insert_child parent c).1 ↔ k = c ∨ k ∈ mapKeys d := by
  cases parent with
  | none => exact mem_keys_ensure c k
  | some p =>
    simp only [Dag.insert_child]
    split
    · simp only [mapKeys_mapAdjust]
      exact mem_keys_ensure c k
    · simp only [mapKeys_mapAdjust]
      exact mem_keys_ensure c k

theorem insert_child_fail_iff {d : Dag} (hs : (mapKeys d).Pairwise (· < ·)) (p c : Nat) :
    (d.insert_child (some p) c).2 = false ↔ mapLookup d p = none ∧ p ≠ c := by
  rw [insert_child_some_flag hs]
  cases hdp : mapLookup d p <;> by_cases hpc : p = c <;> simp [hpc]

@[simp] theorem add_parent_children (n : Node) (p : Nat) :
    (n.add_parent p).children = n.children := rfl

@[simp] theorem add_parent_parents (n : Node) (p : Nat) :
    (n.add_parent p).parents = setInsert p n.parents := rfl

@[simp] theorem add_parent_value (n : Node) (p : Nat) :
    (n.add_parent p).value = n.value := rfl

@[simp] theorem add_child_children (n : Node) (c : Nat) :
    (n.add_child c).children = setInsert c n.children := rfl

@[simp] theorem add_child_parents (n : Node) (c : Nat) :
    (n.add_child c).parents = n.parents := rfl

@[simp] theorem add_child_value (n : Node) (c : Nat) :
    (n.add_child c).value = n.value := rfl

@[simp] theorem new_value (c : Nat) : (Node.new c).value = c := rfl

@[simp] theorem new_parents (c : Nat) : (Node.new c).parents = [] := rfl

@[simp] theorem new_children (c : Nat) : (Node.new c).children = [] := rfl

theorem mem_children_nodeAt {d : Dag} {c b : Nat} :
    b ∈ (d.nodeAt c).children ↔ EdgeTo d c b := by
  unfold Dag.nodeAt EdgeTo
  cases hc : mapLookup d c with
  | none => simp
  | some n => simp

theorem mem_parents_nodeAt {d : Dag} {c a : Nat} :
    a ∈ (d.nodeAt c).parents ↔ ParentOf d a c := by
  unfold Dag.nodeAt ParentOf
  cases hc : mapLookup d c with
  | none => simp
  | some n => simp

theorem edge_insert_none {d : Dag} (hs : (mapKeys d).Pairwise (· < ·)) (c a b : Nat) :
    EdgeTo (d.insert_child none c).1 a b ↔ EdgeTo d a b := by
  show EdgeTo (d.ensure c) a b ↔ EdgeTo d a b
  unfold EdgeTo
  rw [lookup_ensure hs]
  by_cases h : a = c
  · subst h
    simp only [if_pos rfl]
    constructor
    · rintro ⟨n, hn, hb⟩
      injection hn with hn
      exact mem_children_nodeAt.1 (hn ▸ hb)
    · intro he
      exact ⟨_, rfl, mem_children_nodeAt.2 he⟩
  · rw [if_neg h]

theorem parent_insert_none {d : Dag} (hs : (mapKeys d).Pairwise (· < ·)) (c a b : Nat) :
    ParentOf (d.insert_child none c).1 a b ↔ ParentOf d a b := by
  show ParentOf (d.ensure c) a b ↔ ParentOf d a b
  unfold ParentOf
  rw [lookup_ensure hs]
  by_cases h : b = c
  · subst h
    simp only [if_pos rfl]
    constructor
    · rintro ⟨n, hn, ha⟩
      injection hn with hn
      exact mem_parents_nodeAt.1 (hn ▸ ha)
    · intro he
      exact ⟨_, rfl, mem_parents_nodeAt.2 he⟩
  · rw [if_neg h]

theorem edge_insert_some {d : Dag} (hs : (mapKeys d).Pairwise (· < ·)) {p c : Nat}
    (hflag : (d.insert_child (some p) c).2 = true) (a b : Nat) :
    EdgeTo (d.insert_child (some p) c).1 a b ↔ EdgeTo d a b ∨ (a = p ∧ b = c) := by
  by_cases hpc : p = c
  · subst hpc
    by_cases hac : a = p
    · subst hac
      unfold EdgeTo
      rw [(insert_child_self hs a).2]
      constructor
      · rintro ⟨n, hn, hb⟩
        injection hn with hn
        rw [← hn] at hb
        simp only [add_child_children, add_parent_children] at hb
        rcases mem_setInsert.1 hb with rfl | hb
        · exact Or.inr ⟨rfl, rfl⟩
        · exact Or.inl (mem_children_nodeAt.1 hb)
      · intro hor
        refine ⟨_, rfl, ?_⟩
        simp only [add_child_children, add_parent_children]
        rcases hor with he | ⟨_, rfl⟩
        · exact mem_setInsert.2 (Or.inr (mem_children_nodeAt.2 he))
        · exact mem_setInsert.2 (Or.inl rfl)
    · unfold EdgeTo
      rw [insert_child_some_fst_other hs (fun hh => hac hh) hac]
      constructor
      · exact Or.inl
      · rintro (he | ⟨rfl, rfl⟩)
        · exact he
        · exact absurd rfl hac
  · rcases Option.isSome_iff_exists.1 (by
        rw [insert_child_some_flag hs] at hflag
        simpa [hpc] using hflag) with ⟨np, hnp⟩
    by_cases hac : a = c
    · subst hac
      unfold EdgeTo
      rw [insert_child_some_fst_child hs hpc]
      constructor
      · rintro ⟨n, hn, hb⟩
        injection hn with hn
        rw [← hn] at hb
        simp only [add_parent_children] at hb
        exact Or.inl (mem_children_nodeAt.1 hb)
      · rintro (he | ⟨rfl, rfl⟩)
        · exact ⟨_, rfl, by
            simp only [add_parent_children]
            exact mem_children_nodeAt.2 he⟩
        · exact absurd rfl hpc
    · by_cases hap : a = p
      · subst hap
        unfold EdgeTo
        rw [(insert_child_some_fst_parent hs hpc hnp).2]
        constructor
        · rintro ⟨n, hn, hb⟩
          injection hn with hn
          rw [← hn] at hb
          simp only [add_child_children] at hb
          rcases mem_setInsert.1 hb with rfl | hb
          · exact Or.inr ⟨rfl, rfl⟩
          · exact Or.inl ⟨np, hnp, hb⟩
        · rintro (⟨n, hn, hb⟩ | ⟨_, rfl⟩)
          · rw [hnp] at hn
            injection hn with hn
            exact ⟨_, rfl, by
              simp only [add_child_children]
              exact mem_setInsert.2 (Or.inr (hn ▸ hb))⟩
          · exact ⟨_, rfl, by
              simp only [add_child_children]
              exact mem_setInsert.2 (Or.inl rfl)⟩
      · unfold EdgeTo
        rw [insert_child_some_fst_other hs hac hap]
        constructor
        · exact Or.inl
        · rintro (he | ⟨rfl, _⟩)
          · exact he
          · exact absurd rfl hap

theorem parent_insert_some {d : Dag} (hs : (mapKeys d).Pairwise (· < ·)) {p c : Nat}
    (hflag : (d.insert_child (some p) c).2 = true) (a b : Nat) :
    ParentOf (d.insert_child (some p) c).1 a b ↔ ParentOf d a b ∨ (a = p ∧ b = c) := by
  by_cases hpc : p = c
  · subst hpc
    by_cases hbc : b = p
    · subst hbc
      unfold ParentOf
      rw [(insert_child_self hs b).2]
      constructor
      · rintro ⟨n, hn, ha⟩
        injection hn with hn
        rw [← hn] at ha
        simp only [add_child_parents, add_parent_parents] at ha
        rcases mem_setInsert.1 ha with rfl | ha
        · exact Or.inr ⟨rfl, rfl⟩
        · exact Or.inl (mem_parents_nodeAt.1 ha)
      · intro hor
        refine ⟨_, rfl, ?_⟩
        simp only [add_child_parents, add_parent_parents]
        rcases hor with he | ⟨rfl, _⟩
        · exact mem_setInsert.2 (Or.inr (mem_parents_nodeAt.2 he))
        · exact mem_setInsert.2 (Or.inl rfl)
    · unfold ParentOf
      rw [insert_child_some_fst_other hs hbc hbc]
      constructor
      · exact Or.inl
      · rintro (he | ⟨rfl, rfl⟩)
        · exact he
        · exact absurd rfl hbc
  · rcases Option.isSome_iff_exists.1 (by
        rw [insert_child_some_flag hs] at hflag
        simpa [hpc] using hflag) with ⟨np, hnp⟩
    by_cases hbc : b = c
    · subst hbc
      unfold ParentOf
      rw [insert_child_some_fst_child hs hpc]
      constructor
      · rintro ⟨n, hn, ha⟩
        injection hn with hn
        rw [← hn] at ha
        simp only [add_parent_parents] at ha
        rcases mem_setInsert.1 ha with rfl | ha
        · exact Or.inr ⟨rfl, rfl⟩
        · exact Or.inl (mem_parents_nodeAt.1 ha)
      · rintro (he | ⟨rfl, _⟩)
        · exact ⟨_, rfl, by
            simp only [add_parent_parents]
            exact mem_setInsert.2 (Or.inr (mem_parents_nodeAt.2 he))⟩
        · exact ⟨_, rfl, by
            simp only [add_parent_parents]
            exact mem_setInsert.2 (Or.inl rfl)⟩
    · by_cases hbp : b = p
      · subst hbp
        unfold ParentOf
        rw [(insert_child_some_fst_parent hs hpc hnp).2]
        constructor
        · rintro ⟨n, hn, ha⟩
          injection hn with hn
          rw [← hn] at ha
          simp only [add_child_parents] at ha
          exact Or.inl ⟨np, hnp, ha⟩
        · rintro (⟨n, hn, ha⟩ | ⟨_, rfl⟩)
          · rw [hnp] at hn
            injection hn with hn
            exact ⟨_, rfl, by
              simp only [add_child_parents]
              exact hn ▸ ha⟩
          · exact absurd rfl hbc
      · unfold ParentOf
        rw [insert_child_some_fst_other hs hbc hbp]
        constructor
        · exact Or.inl
        · rintro (he | ⟨_, rfl⟩)
          · exact he
          · exact absurd rfl hbc

theorem wf_lookup {d : Dag} (hwf : d.WellFormed) {k : Nat} {n : Node}
    (h : mapLookup d k = some n) :
    n.value = k ∧ n.parents.Pairwise (· < ·) ∧ n.children.Pairwise (· < ·) := by
  have hmem := mapLookup_mem h
  exact ⟨hwf.valueEq _ hmem, (hwf.setsSorted _ hmem).1, (hwf.setsSorted _ hmem).2⟩

theorem nodeAt_value {d : Dag} (hwf : d.WellFormed) (c : Nat) :
    (d.nodeAt c).value = c := by
  unfold Dag.nodeAt
  cases hc : mapLookup d c with
  | none => rfl
  | some n => exact (wf_lookup hwf hc).1

theorem nodeAt_parents_sorted {d : Dag} (hwf : d.WellFormed) (c : Nat) :
    (d.nodeAt c).parents.Pairwise (· < ·) := by
  unfold Dag.nodeAt
  cases hc : mapLookup d c with
  | none => simp
  | some n => exact (wf_lookup hwf hc).2.1

theorem nodeAt_children_sorted {d : Dag} (hwf : d.WellFormed) (c : Nat) :
    (d.nodeAt c).children.Pairwise (· < ·) := by
  unfold Dag.nodeAt
  cases hc : mapLookup d c with
  | none => simp
  | some n => exact (wf_lookup hwf hc).2.2

/-- Every node stored after an insert_child call is the ensured node of
its key, possibly extended by one recorded parent and one recorded child. -/
theorem insert_child_lookup_shape {d : Dag} (hs : (mapKeys d).Pairwise (· < ·))
    {parent : Option Nat} {c k : Nat} {n : Node}
    (h : mapLookup (d.insert_child parent c).1 k = some n) :
    n = d.nodeAt k ∨ (∃ p0, n = (d.nodeAt k).add_parent p0) ∨
      (∃ c0, n = (d.nodeAt k).add_child c0) ∨
      (∃ p0 c0, n = ((d.nodeAt k).add_parent p0).add_child c0) := by
  have nodeAt_of_lookup : ∀ m, mapLookup d k = some m → d.nodeAt k = m := by
    intro m hm
    unfold Dag.nodeAt
    rw [hm]
    rfl
  cases parent with
  | none =>
    rw [show (d.insert_child none c).1 = d.ensure c from rfl, lookup_ensure hs] at h
    by_cases hk : k = c
    · rw [if_pos hk] at h
      injection h with h
      subst hk
      exact Or.inl h.symm
    · rw [if_neg hk] at h
      rw [nodeAt_of_lookup n h]
      exact Or.inl rfl
  | some p =>
    by_cases hpc : p = c
    · subst hpc
      by_cases hk : k = p
      · subst hk
        cases hflag : (d.insert_child (some k) k).2 with
        | false =>
          rw [insert_child_fail_iff hs] at hflag
          exact absurd rfl hflag.2
        | true =>
          rw [(insert_child_self hs k).2] at h
          injection h with h
          exact Or.inr (Or.inr (Or.inr ⟨k, k, h.symm⟩))
      · rw [insert_child_some_fst_other hs hk hk] at h
        rw [nodeAt_of_lookup n h]
        exact Or.inl rfl
    · by_cases hk : k = c
      · subst hk
        rw [insert_child_some_fst_child hs hpc] at h
        injection h with h
        exact Or.inr (Or.inl ⟨p, h.symm⟩)
      · by_cases hkp : k = p
        · subst hkp
          cases hdp : mapLookup d k with
          | none =>
            have hother : mapLookup (d.insert_child (some k) c).1 k = mapLookup d k := by
              simp only [Dag.insert_child]
              rw [lookup_adjust_child hs]
              rw [if_neg hpc]
              rw [hdp]
              simp only [Option.isSome_none, Bool.false_eq_true, if_false]
              rw [lookup_adjust_child hs, if_neg hk]
              exact hdp
            rw [hother, hdp] at h
            exact absurd h (by simp)
          | some np =>
            rw [(insert_child_some_fst_parent hs hpc hdp).2] at h
            injection h with h
            rw [nodeAt_of_lookup np hdp]
            exact Or.inr (Or.inr (Or.inl ⟨c, h.symm⟩))
        · rw [insert_child_some_fst_other hs hk hkp] at h
          rw [nodeAt_of_lookup n h]
          exact Or.inl rfl

theorem wf_new : Dag.WellFormed Dag.new := by
  constructor
  · simp [Dag.new]
  · intro q hq; simp [Dag.new] at hq
  · intro q hq; simp [Dag.new] at hq
  · rintro a b ⟨n, hn, _⟩
    simp [Dag.new, mapLookup] at hn
  · rintro a b ⟨n, hn, _⟩
    simp [Dag.new, mapLookup] at hn

theorem insert_child_wf {d : Dag} (hwf : d.WellFormed) {parent : Option Nat} {c : Nat}
    (hflag : (d.insert_child parent c).2 = true) :
    (d.insert_child parent c).1.WellFormed := by
  have hs := hwf.sorted
  have hsorted' := insert_child_sorted hs parent c
  constructor
  · exact hsorted'
  · intro q hq
    have hlk : mapLookup (d.insert_child parent c).1 q.1 = some q.2 :=
      mapLookup_of_mem_nodup (by cases q; exact hq) (sorted_nodup hsorted')
    rcases insert_child_lookup_shape hs hlk with h | ⟨p0, h⟩ | ⟨c0, h⟩ | ⟨p0, c0, h⟩ <;>
      rw [h] <;> exact nodeAt_value hwf _
  · intro q hq
    have hlk : mapLookup (d.insert_child parent c).1 q.1 = some q.2 :=
      mapLookup_of_mem_nodup (by cases q; exact hq) (sorted_nodup hsorted')
    rcases insert_child_lookup_shape hs hlk with h | ⟨p0, h⟩ | ⟨c0, h⟩ | ⟨p0, c0, h⟩ <;>
      rw [h]
    · exact ⟨nodeAt_parents_sorted hwf _, nodeAt_children_sorted hwf _⟩
    · exact ⟨sorted_setInsert (nodeAt_parents_sorted hwf _),
        nodeAt_children_sorted hwf _⟩
    · exact ⟨nodeAt_parents_sorted hwf _,
        sorted_setInsert (nodeAt_children_sorted hwf _)⟩
    · exact ⟨sorted_setInsert (nodeAt_parents_sorted hwf _),
        sorted_setInsert (nodeAt_children_sorted hwf _)⟩
  · intro a b he
    cases parent with
    | none =>
      rw [edge_insert_none hs] at he
      rw [parent_insert_none hs]
      exact hwf.sym1 a b he
    | some p =>
      rw [edge_insert_some hs hflag] at he
      rw [parent_insert_some hs hflag]
      rcases he with he | hpc
      · exact Or.inl (hwf.sym1 a b he)
      · exact Or.inr hpc
  · intro a b hp
    cases parent with
    | none =>
      rw [parent_insert_none hs] at hp
      rw [edge_insert_none hs]
      exact hwf.sym2 a b hp
    | some p =>
      rw [parent_insert_some hs hflag] at hp
      rw [edge_insert_some hs hflag]
      rcases hp with hp | hpc
      · exact Or.inl (hwf.sym2 a b hp)
      · exact Or.inr hpc

theorem reachable_wf {d : Dag} (h : Reachable d) : d.WellFormed := by
  induction h with
  | empty => exact wf_new
  | step _ hstep ih =>
    rename_i d0 d1 p c hr
    have := @insert_child_wf d0 ih p c (by rw [hstep])
    rw [hstep] at this
    exact this

/-- x occupies some position strictly before some position holding y. -/
def Before (x y : Nat) (l : List Nat) : Prop :=
  ∃ i j : Nat, i < j ∧ l[i]? = some x ∧ l[j]? = some y

theorem Before.append_right {x y : Nat} {l : List Nat} (h : Before x y l)
    (l2 : List Nat) : Before x y (l ++ l2) := by
  obtain ⟨i, j, hij, hx, hy⟩ := h
  have hi : i < l.length := (List.getElem?_eq_some.1 hx).1
  have hj : j < l.length := (List.getElem?_eq_some.1 hy).1
  refine ⟨i, j, hij, ?_, ?_⟩
  · rw [List.getElem?_append, if_pos hi]; exact hx
  · rw [List.getElem?_append, if_pos hj]; exact hy

theorem before_append_of_mem {x y : Nat} {l : List Nat} (hx : x ∈ l) :
    Before x y (l ++ [y]) := by
  obtain ⟨i, hi⟩ := List.mem_iff_getElem?.1 hx
  have hlen : i < l.length := (List.getElem?_eq_some.1 hi).1
  refine ⟨i, l.length, hlen, ?_, ?_⟩
  · rw [List.getElem?_append, if_pos hlen]; exact hi
  · rw [List.getElem?_append, if_neg (by omega)]
    simp

theorem Before.trans_nodup {x y z : Nat} {l : List Nat} (hn : l.Nodup)
    (h1 : Before x y l) (h2 : Before y z l) : Before x z l := by
  obtain ⟨i, j, hij, hx, hy⟩ := h1
  obtain ⟨j', k, hjk, hy', hz⟩ := h2
  have hj : j < l.length := (List.getElem?_eq_some.1 hy).1
  have hjj : j = j' := List.getElem?_inj hj hn (hy.trans hy'.symm)
  exact ⟨i, k, lt_trans (hjj ▸ hij) hjk, hx, hz⟩

theorem before_irrefl_nodup {x : Nat} {l : List Nat} (hn : l.Nodup)
    (h : Before x x l) : False := by
  obtain ⟨i, j, hij, hx, hx'⟩ := h
  have hi : i < l.length := (List.getElem?_eq_some.1 hx).1
  have := List.getElem?_inj hi hn (hx.trans hx'.symm)
  omega

theorem mem_mapAdjust_nodup {l : List (Nat × Node)} {k : Nat} {f : Node → Node}
    {q : Nat × Node} (hnd : (mapKeys l).Nodup) (h : q ∈ mapAdjust k f l) :
    (q ∈ l ∧ q.1 ≠ k) ∨ ∃ v, mapLookup l k = some v ∧ q = (k, f v) := by
  induction l with
  | nil => simp [mapAdjust] at h
  | cons p rest ih =>
    rw [mapKeys_cons, List.nodup_cons] at hnd
    simp only [mapAdjust] at h
    by_cases hp : p.1 = k
    · rw [if_pos hp] at h
      rcases List.mem_cons.1 h with rfl | h
      · exact Or.inr ⟨p.2, by rw [mapLookup, if_pos hp], by rw [hp]⟩
      · refine Or.inl ⟨List.mem_cons_of_mem _ h, fun hq => ?_⟩
        exact hnd.1 (hp ▸ hq ▸ (List.mem_map_of_mem Prod.fst h : q.1 ∈ mapKeys rest))
    · rw [if_neg hp] at h
      rcases List.mem_cons.1 h with rfl | h
      · exact Or.inl ⟨List.mem_cons_self _ _, hp⟩
      · rcases ih hnd.2 h with ⟨h1, h2⟩ | ⟨v, hv, hq⟩
        · exact Or.inl ⟨List.mem_cons_of_mem _ h1, h2⟩
        · exact Or.inr ⟨v, by rw [mapLookup, if_neg hp]; exact hv, hq⟩

theorem perm_move_to_heads {out kh kt kt2 : List Nat} {ch : Nat}
    (hperm : kt.Perm (ch :: kt2)) :
    (out ++ ((ch :: kh) ++ kt2)).Perm (out ++ (kh ++ kt)) := by
  have h1 : ((ch :: kh) ++ kt2).Perm (kh ++ kt) := by
    have h2 : (ch :: (kh ++ kt2)).Perm (kh ++ (ch :: kt2)) := List.perm_middle.symm
    have h3 : (kh ++ (ch :: kt2)).Perm (kh ++ kt) := (hperm.symm).append_left kh
    exact h2.trans h3
  exact h1.append_left out

/-- Invariant over the state of Dag::flatten part-way through the for-loop
over the children of the emitted head idx: done lists the children already
visited, out the stops emitted before idx. -/
structure MidInv (G : Dag) (idx : Nat) (done : List Nat) (out : List Nat)
    (heads : List (Nat × Node)) (tails : Dag) : Prop where
  perm : ((out ++ [idx]) ++ (mapKeys heads ++ mapKeys tails)).Perm (mapKeys G)
  entry : ∀ q ∈ heads ++ tails, ∃ n, mapLookup G q.1 = some n
      ∧ q.2.value = n.value ∧ q.2.children = n.children
      ∧ q.2.parents.Nodup
      ∧ (∀ x, x ∈ q.2.parents ↔ x ∈ n.parents ∧ x ∉ out ∧ (x = idx → q.1 ∉ done))
  headsEmpty : ∀ q ∈ heads, q.2.parents = []
  tailsNe : ∀ q ∈ tails, q.2.parents ≠ []

theorem processChildren_go (G : Dag) (hwf : G.WellFormed) (idx : Nat) {gnode : Node}
    (hidx : mapLookup G idx = some gnode) {out : List Nat} (hout : idx ∉ out)
    (houtC : ∀ k ∈ out, ∀ p, ParentOf G p k → p ∈ out)
    (hpar : ∀ x ∈ gnode.parents, x ∈ out) :
    ∀ todo done heads tails,
      gnode.children = done ++ todo →
      MidInv G idx done out heads tails →
      ∃ h2 t2, processChildren idx todo heads tails = some (h2, t2)
        ∧ MidInv G idx gnode.children out h2 t2
        ∧ h2.length + 2 * t2.length ≤ heads.length + 2 * tails.length := by
  intro todo
  induction todo with
  | nil =>
    intro done heads tails hsplit hinv
    rw [List.append_nil] at hsplit
    exact ⟨heads, tails, rfl, hsplit ▸ hinv, le_refl _⟩
  | cons ch todo ih =>
    intro done heads tails hsplit hinv
    have hGnd : (mapKeys G).Nodup := sorted_nodup hwf.sorted
    have hLnd : ((out ++ [idx]) ++ (mapKeys heads ++ mapKeys tails)).Nodup :=
      hinv.perm.nodup_iff.2 hGnd
    have hmidN : (mapKeys heads ++ mapKeys tails).Nodup := hLnd.of_append_right
    have hdisj : (mapKeys heads).Disjoint (mapKeys tails) :=
      List.disjoint_of_nodup_append hmidN
    have htnd : (mapKeys tails).Nodup := hmidN.of_append_right
    have hchNodup : gnode.children.Nodup := sorted_nodup (wf_lookup hwf hidx).2.2
    have hchmem : ch ∈ gnode.children := by rw [hsplit]; simp
    have hchdone : ch ∉ done := by
      intro hc
      have hnd2 := hsplit ▸ hchNodup
      exact List.disjoint_of_nodup_append hnd2 hc (List.mem_cons_self _ _)
    obtain ⟨nch, hnch, hidxpar⟩ := hwf.sym1 idx ch ⟨gnode, hidx, hchmem⟩
    have hchG : ch ∈ mapKeys G := mapLookup_isSome_iff.1 (by rw [hnch]; rfl)
    have hchT : ch ∈ mapKeys tails := by
      have hmem := hinv.perm.mem_iff.2 hchG
      rcases List.mem_append.1 hmem with h1 | h2
      · rcases List.mem_append.1 h1 with ho | hi
        · exact absurd (houtC ch ho idx ⟨nch, hnch, hidxpar⟩) hout
        · have hci : ch = idx := by simpa using hi
          subst hci
          rw [hnch] at hidx
          injection hidx with hh
          exact absurd (hpar ch (hh ▸ hidxpar)) hout
      · rcases List.mem_append.1 h2 with hh | ht
        · exfalso
          obtain ⟨q, hq, hq1⟩ := List.mem_map.1 hh
          obtain ⟨n, hn, _, _, _, hiff⟩ := hinv.entry q (List.mem_append.2 (Or.inl hq))
          have hemp := hinv.headsEmpty q hq
          have hnn : n = nch := by
            rw [hq1] at hn
            rw [hn] at hnch
            injection hnch with hh2
          have hinq : idx ∈ q.2.parents :=
            (hiff idx).2 ⟨by rw [hnn]; exact hidxpar, hout, fun _ => by
              rw [hq1]; exact hchdone⟩
          rw [hemp] at hinq
          simp at hinq
        · exact ht
    obtain ⟨tnode, htnode⟩ := Option.isSome_iff_exists.1 (mapLookup_isSome_iff.2 hchT)
    have htmem : (ch, tnode) ∈ tails := mapLookup_mem htnode
    obtain ⟨n, hn, hval, hchild, hpnd, hiff⟩ :=
      hinv.entry (ch, tnode) (List.mem_append.2 (Or.inr htmem))
    have hnn : n = nch := by
      rw [hn] at hnch
      injection hnch with hh
    subst hnn
    have hidxt : idx ∈ tnode.parents :=
      (hiff idx).2 ⟨hidxpar, hout, fun _ => hchdone⟩
    have hr2 : (tnode.remove_parent idx).2 = true := setRemove_snd_iff.2 hidxt
    have hP'mem : ∀ x, x ∈ (tnode.remove_parent idx).1.parents ↔
        x ∈ tnode.parents ∧ x ≠ idx := fun x => mem_setRemove_of_nodup hpnd
    have hP'nd : (tnode.remove_parent idx).1.parents.Nodup :=
      hpnd.sublist setRemove_fst_sublist
    have hchInDone : ch ∈ done ++ [ch] := by simp
    have hsplit2 : gnode.children = (done ++ [ch]) ++ todo := by
      rw [hsplit, List.append_assoc]
      rfl
    have hstep : processChildren idx (ch :: todo) heads tails =
        if (tnode.remove_parent idx).1.parents.isEmpty then
          processChildren idx todo ((ch, (tnode.remove_parent idx).1) :: heads)
            (mapErase ch tails)
        else
          processChildren idx todo heads
            (mapAdjust ch (fun _ => (tnode.remove_parent idx).1) tails) := by
      simp only [processChildren, htnode, hr2]
      simp
    by_cases hPe : (tnode.remove_parent idx).1.parents.isEmpty
    · have hPnil : (tnode.remove_parent idx).1.parents = [] := List.isEmpty_iff.1 hPe
      have hktperm : (mapKeys tails).Perm (ch :: mapKeys (mapErase ch tails)) := by
        have h0 := (perm_mapErase htnode).map Prod.fst
        simpa [mapKeys] using h0
      have hchNotInErase : ch ∉ mapKeys (mapErase ch tails) := by
        have := hktperm.nodup_iff.1 htnd
        exact (List.nodup_cons.1 this).1
      have hinv2 : MidInv G idx (done ++ [ch]) out
          ((ch, (tnode.remove_parent idx).1) :: heads) (mapErase ch tails) := by
        constructor
        · simp only [mapKeys_cons]
          exact (perm_move_to_heads hktperm).trans hinv.perm
        · intro q hq
          rcases List.mem_append.1 hq with hq | hq
          · rcases List.mem_cons.1 hq with rfl | hq
            · refine ⟨n, hn, hval, hchild, hP'nd, fun x => ?_⟩
              rw [hP'mem x, hiff x]
              constructor
              · rintro ⟨⟨hx1, hx2, _⟩, hx4⟩
                exact ⟨hx1, hx2, fun hxi => absurd rfl (hxi ▸ hx4)⟩
              · rintro ⟨hx1, hx2, hx3⟩
                have hxne : x ≠ idx := fun hxi => (hx3 hxi) hchInDone
                exact ⟨⟨hx1, hx2, fun hxi => absurd hxi hxne⟩, hxne⟩
            · obtain ⟨n2, hn2, hv2, hc2, hp2, hiff2⟩ :=
                hinv.entry q (List.mem_append.2 (Or.inl hq))
              refine ⟨n2, hn2, hv2, hc2, hp2, fun x => ?_⟩
              rw [hiff2 x]
              have hqch : q.1 ≠ ch :=
                fun hh => hdisj (hh ▸ List.mem_map_of_mem Prod.fst hq) hchT
              constructor
              · rintro ⟨hx1, hx2, hx3⟩
                refine ⟨hx1, hx2, fun hxi => ?_⟩
                intro hmem
                rcases List.mem_append.1 hmem with hmem | hmem
                · exact (hx3 hxi) hmem
                · exact hqch (by simpa using hmem)
              · rintro ⟨hx1, hx2, hx3⟩
                exact ⟨hx1, hx2, fun hxi hmem =>
                  (hx3 hxi) (List.mem_append.2 (Or.inl hmem))⟩
          · have hqtails : q ∈ tails := mapErase_sublist.subset hq
            obtain ⟨n2, hn2, hv2, hc2, hp2, hiff2⟩ :=
              hinv.entry q (List.mem_append.2 (Or.inr hqtails))
            refine ⟨n2, hn2, hv2, hc2, hp2, fun x => ?_⟩
            rw [hiff2 x]
            have hqch : q.1 ≠ ch := by
              intro hh
              have hq1 : q.1 ∈ mapKeys (mapErase ch tails) :=
                List.mem_map_of_mem Prod.fst hq
              rw [hh] at hq1
              exact hchNotInErase hq1
            constructor
            · rintro ⟨hx1, hx2, hx3⟩
              refine ⟨hx1, hx2, fun hxi => ?_⟩
              intro hmem
              rcases List.mem_append.1 hmem with hmem | hmem
              · exact (hx3 hxi) hmem
              · exact hqch (by simpa using hmem)
            · rintro ⟨hx1, hx2, hx3⟩
              exact ⟨hx1, hx2, fun hxi hmem =>
                (hx3 hxi) (List.mem_append.2 (Or.inl hmem))⟩
        · intro q hq
          rcases List.mem_cons.1 hq with rfl | hq
          · exact hPnil
          · exact hinv.headsEmpty q hq
        · intro q hq
          exact hinv.tailsNe q (mapErase_sublist.subset hq)
      obtain ⟨h2, t2, heq, hinvF, hle⟩ := ih (done ++ [ch])
        ((ch, (tnode.remove_parent idx).1) :: heads) (mapErase ch tails) hsplit2 hinv2
      refine ⟨h2, t2, ?_, hinvF, ?_⟩
      · rw [hstep, if_pos hPe, heq]
      · have hlen : (mapKeys tails).length =
            (ch :: mapKeys (mapErase ch tails)).length := hktperm.length_eq
        simp only [List.length_cons, mapKeys, List.length_map] at hlen ⊢
        simp only [List.length_cons] at hle
        have hlen2 : (mapErase ch tails).length + 1 = tails.length := by
          have h1 : (mapKeys tails).length = tails.length := by
            simp [mapKeys]
          have h2 : (mapKeys (mapErase ch tails)).length =
              (mapErase ch tails).length := by
            simp [mapKeys]
          omega
        omega
    · have hPne : (tnode.remove_parent idx).1.parents ≠ [] := by
        intro hh
        rw [hh] at hPe
        simp at hPe
      have hinv2 : MidInv G idx (done ++ [ch]) out heads
          (mapAdjust ch (fun _ => (tnode.remove_parent idx).1) tails) := by
        constructor
        · rw [show mapKeys (mapAdjust ch (fun _ => (tnode.remove_parent idx).1) tails)
            = mapKeys tails from mapKeys_mapAdjust]
          exact hinv.perm
        · intro q hq
          rcases List.mem_append.1 hq with hq | hq
          · obtain ⟨n2, hn2, hv2, hc2, hp2, hiff2⟩ :=
              hinv.entry q (List.mem_append.2 (Or.inl hq))
            refine ⟨n2, hn2, hv2, hc2, hp2, fun x => ?_⟩
            rw [hiff2 x]
            have hqch : q.1 ≠ ch :=
              fun hh => hdisj (hh ▸ List.mem_map_of_mem Prod.fst hq) hchT
            constructor
            · rintro ⟨hx1, hx2, hx3⟩
              refine ⟨hx1, hx2, fun hxi => ?_⟩
              intro hmem
              rcases List.mem_append.1 hmem with hmem | hmem
              · exact (hx3 hxi) hmem
              · exact hqch (by simpa using hmem)
            · rintro ⟨hx1, hx2, hx3⟩
              exact ⟨hx1, hx2, fun hxi hmem =>
                (hx3 hxi) (List.mem_append.2 (Or.inl hmem))⟩
          · rcases mem_mapAdjust_nodup htnd hq with ⟨hqt, hqch⟩ | ⟨v, hv, rfl⟩
            · obtain ⟨n2, hn2, hv2, hc2, hp2, hiff2⟩ :=
                hinv.entry q (List.mem_append.2 (Or.inr hqt))
              refine ⟨n2, hn2, hv2, hc2, hp2, fun x => ?_⟩
              rw [hiff2 x]
              constructor
              · rintro ⟨hx1, hx2, hx3⟩
                refine ⟨hx1, hx2, fun hxi => ?_⟩
                intro hmem
                rcases List.mem_append.1 hmem with hmem | hmem
                · exact (hx3 hxi) hmem
                · exact hqch (by simpa using hmem)
              · rintro ⟨hx1, hx2, hx3⟩
                exact ⟨hx1, hx2, fun hxi hmem =>
                  (hx3 hxi) (List.mem_append.2 (Or.inl hmem))⟩
            · refine ⟨n, hn, hval, hchild, hP'nd, fun x => ?_⟩
              show x ∈ (tnode.remove_parent idx).1.parents ↔ _
              rw [hP'mem x, hiff x]
              constructor
              · rintro ⟨⟨hx1, hx2, _⟩, hx4⟩
                exact ⟨hx1, hx2, fun hxi => absurd rfl (hxi ▸ hx4)⟩
              · rintro ⟨hx1, hx2, hx3⟩
                have hxne : x ≠ idx := fun hxi => (hx3 hxi) hchInDone
                exact ⟨⟨hx1, hx2, fun hxi => absurd hxi hxne⟩, hxne⟩
        · exact hinv.headsEmpty
        · intro q hq
          rcases mem_mapAdjust_nodup htnd hq with ⟨hqt, _⟩ | ⟨v, hv, rfl⟩
          · exact hinv.tailsNe q hqt
          · exact hPne
      obtain ⟨h2, t2, heq, hinvF, hle⟩ := ih (done ++ [ch]) heads
        (mapAdjust ch (fun _ => (tnode.remove_parent idx).1) tails) hsplit2 hinv2
      refine ⟨h2, t2, ?_, hinvF, ?_⟩
      · rw [hstep, if_neg hPe, heq]
      · have hlen : (mapAdjust ch (fun _ => (tnode.remove_parent idx).1) tails).length
            = tails.length := by
          have h1 := mapKeys_mapAdjust
            (l := tails) (k := ch) (f := fun _ => (tnode.remove_parent idx).1)
          have h2 : (mapKeys (mapAdjust ch (fun _ => (tnode.remove_parent idx).1)
              tails)).length = (mapKeys tails).length := by rw [h1]
          simpa [mapKeys] using h2
        omega

/-- Invariant at the top of the while-loop of Dag::flatten. -/
structure LoopInv (G : Dag) (heads : List (Nat × Node)) (tails : Dag)
    (out : List Nat) : Prop where
  perm : (out ++ (mapKeys heads ++ mapKeys tails)).Perm (mapKeys G)
  entry : ∀ q ∈ heads ++ tails, ∃ n, mapLookup G q.1 = some n
      ∧ q.2.value = n.value ∧ q.2.children = n.children
      ∧ q.2.parents.Nodup
      ∧ (∀ x, x ∈ q.2.parents ↔ x ∈ n.parents ∧ x ∉ out)
  headsEmpty : ∀ q ∈ heads, q.2.parents = []
  tailsNe : ∀ q ∈ tails, q.2.parents ≠ []
  orderInv : ∀ (j k : Nat), out[j]? = some k → ∀ (p : Nat), ParentOf G p k →
      ∃ i, i < j ∧ out[i]? = some p

theorem flattenLoop_spec (G : Dag) (hwf : G.WellFormed) :
    ∀ fuel (heads : List (Nat × Node)) (tails : Dag) (out : List Nat),
      heads.length + 2 * tails.length < fuel →
      LoopInv G heads tails out →
      (∃ outF, flattenLoop fuel heads tails out = .ok outF ∧ LoopInv G [] [] outF) ∨
      (∃ outF tailsF, flattenLoop fuel heads tails out = .err .cycle ∧
        tailsF ≠ [] ∧ LoopInv G [] tailsF outF) := by
  intro fuel
  induction fuel with
  | zero => intro heads tails out hlt; omega
  | succ fuel ihf =>
    intro heads tails out hlt hinv
    cases heads with
    | nil =>
      cases tails with
      | nil =>
        left
        exact ⟨out, by simp [flattenLoop], hinv⟩
      | cons t ts =>
        right
        exact ⟨out, t :: ts, by simp [flattenLoop], List.cons_ne_nil _ _, hinv⟩
    | cons hd hs =>
      obtain ⟨idx, node⟩ := hd
      have hGnd : (mapKeys G).Nodup := sorted_nodup hwf.sorted
      obtain ⟨gnode, hidx, hvaln, hchildn, hpnd0, hiff0⟩ :=
        hinv.entry (idx, node) (List.mem_append.2 (Or.inl (List.mem_cons_self _ _)))
      have hemp : node.parents = [] :=
        hinv.headsEmpty (idx, node) (List.mem_cons_self _ _)
      have hpar : ∀ x ∈ gnode.parents, x ∈ out := by
        intro x hx
        by_contra hxo
        have : x ∈ node.parents := (hiff0 x).2 ⟨hx, hxo⟩
        rw [hemp] at this
        simp at this
      have hLnd : (out ++ (mapKeys ((idx, node) :: hs) ++ mapKeys tails)).Nodup :=
        hinv.perm.nodup_iff.2 hGnd
      have hout : idx ∉ out := by
        intro ho
        exact List.disjoint_of_nodup_append hLnd ho
          (List.mem_append.2 (Or.inl (by simp)))
      have houtC : ∀ k ∈ out, ∀ p, ParentOf G p k → p ∈ out := by
        intro k hk p hp
        obtain ⟨j, hj⟩ := List.mem_iff_getElem?.1 hk
        obtain ⟨i, _, hi⟩ := hinv.orderInv j k hj p hp
        exact List.getElem?_mem hi
      have hnv : node.value = idx := by
        rw [hvaln]
        exact (wf_lookup hwf hidx).1
      have hmid0 : MidInv G idx [] out hs tails := by
        constructor
        · have he : (out ++ [idx]) ++ (mapKeys hs ++ mapKeys tails)
              = out ++ (mapKeys ((idx, node) :: hs) ++ mapKeys tails) := by
            simp [List.append_assoc]
          rw [he]
          exact hinv.perm
        · intro q hq
          have hq2 : q ∈ (idx, node) :: hs ++ tails := by
            rcases List.mem_append.1 hq with hq | hq
            · exact List.mem_cons_of_mem _ (List.mem_append.2 (Or.inl hq))
            · exact List.mem_cons_of_mem _ (List.mem_append.2 (Or.inr hq))
          obtain ⟨n2, hn2, hv2, hc2, hp2, hiff2⟩ := hinv.entry q hq2
          refine ⟨n2, hn2, hv2, hc2, hp2, fun x => ?_⟩
          rw [hiff2 x]
          simp
        · intro q hq
          exact hinv.headsEmpty q (List.mem_cons_of_mem _ hq)
        · exact hinv.tailsNe
      have hsplitC : gnode.children = [] ++ node.children := by
        rw [hchildn]
        rfl
      obtain ⟨h2, t2, heq, hmidF, hle⟩ :=
        processChildren_go G hwf idx hidx hout houtC hpar node.children [] hs tails
          hsplitC hmid0
      have hinv2 : LoopInv G h2 t2 (out ++ [idx]) := by
        constructor
        · exact hmidF.perm
        · intro q hq
          obtain ⟨n2, hn2, hv2, hc2, hp2, hiff2⟩ := hmidF.entry q hq
          refine ⟨n2, hn2, hv2, hc2, hp2, fun x => ?_⟩
          rw [hiff2 x]
          constructor
          · rintro ⟨hx1, hx2, hx3⟩
            refine ⟨hx1, fun hmem => ?_⟩
            rcases List.mem_append.1 hmem with hmem | hmem
            · exact hx2 hmem
            · have hxi : x = idx := by simpa using hmem
              have hedge : EdgeTo G x q.1 := hwf.sym2 x q.1 ⟨n2, hn2, hx1⟩
              obtain ⟨ng, hng, hqin⟩ := hedge
              rw [hxi] at hng
              rw [hidx] at hng
              injection hng with hng
              exact (hx3 hxi) (hng ▸ hqin)
          · rintro ⟨hx1, hx2⟩
            have hxo : x ∉ out := fun hh => hx2 (List.mem_append.2 (Or.inl hh))
            have hxi : x ≠ idx := fun hh => hx2 (List.mem_append.2 (Or.inr (by simp [hh])))
            exact ⟨hx1, hxo, fun hh => absurd hh hxi⟩
        · exact hmidF.headsEmpty
        · exact hmidF.tailsNe
        · intro j k hjk p hp
          have hjlen : j < out.length + 1 := by
            have := (List.getElem?_eq_some.1 hjk).1
            simpa using this
          by_cases hj : j < out.length
          · rw [List.getElem?_append, if_pos hj] at hjk
            obtain ⟨i, hij, hi⟩ := hinv.orderInv j k hjk p hp
            refine ⟨i, hij, ?_⟩
            rw [List.getElem?_append, if_pos (lt_trans hij hj)]
            exact hi
          · have hj2 : j = out.length := by omega
            have hk : k = idx := by
              rw [hj2, List.getElem?_append, if_neg (by omega)] at hjk
              simp at hjk
              exact hjk.symm
            subst hk
            obtain ⟨ng, hng, hpg⟩ := hp
            rw [hidx] at hng
            injection hng with hng
            have hpo : p ∈ out := hpar p (hng ▸ hpg)
            obtain ⟨i, hi⟩ := List.mem_iff_getElem?.1 hpo
            have hilen : i < out.length := (List.getElem?_eq_some.1 hi).1
            refine ⟨i, by omega, ?_⟩
            rw [List.getElem?_append, if_pos hilen]
            exact hi
      have hstep : flattenLoop (fuel + 1) ((idx, node) :: hs) tails out
          = flattenLoop fuel h2 t2 (out ++ [node.value]) := by
        simp only [flattenLoop, heq]
      rw [hstep, hnv]
      exact ihf h2 t2 (out ++ [idx]) (by simp at hlt ⊢; omega) hinv2

theorem flatten_spec (G : Dag) (hwf : G.WellFormed) :
    (∃ outF, G.flatten = .ok outF ∧ LoopInv G [] [] outF) ∨
    (∃ outF tailsF, G.flatten = .err .cycle ∧ tailsF ≠ [] ∧ LoopInv G [] tailsF outF) := by
  have hGnd : (mapKeys G).Nodup := sorted_nodup hwf.sorted
  have hpart : ((mapKeys ((G.filter (fun p => p.2.parents.isEmpty)).reverse)) ++
      mapKeys (G.filter (fun p => !p.2.parents.isEmpty))).Perm (mapKeys G) := by
    have h1 : mapKeys ((G.filter (fun p => p.2.parents.isEmpty)).reverse)
        = (mapKeys (G.filter (fun p => p.2.parents.isEmpty))).reverse := by
      simp [mapKeys]
    rw [h1]
    have h2 : ((mapKeys (G.filter (fun p => p.2.parents.isEmpty))).reverse ++
        mapKeys (G.filter (fun p => !p.2.parents.isEmpty))).Perm
        ((mapKeys (G.filter (fun p => p.2.parents.isEmpty))) ++
        mapKeys (G.filter (fun p => !p.2.parents.isEmpty))) :=
      (List.reverse_perm _).append_right _
    refine h2.trans ?_
    have h3 : (G.filter (fun p => p.2.parents.isEmpty) ++
        G.filter (fun p => !p.2.parents.isEmpty)).Perm G :=
      List.filter_append_perm _ G
    have h4 := h3.map Prod.fst
    simpa [mapKeys] using h4
  have hinv0 : LoopInv G ((G.filter (fun p => p.2.parents.isEmpty)).reverse)
      (G.filter (fun p => !p.2.parents.isEmpty)) [] := by
    constructor
    · simpa using hpart
    · intro q hq
      have hqG : q ∈ G := by
        rcases List.mem_append.1 hq with hq | hq
        · exact (List.mem_filter.1 (List.mem_reverse.1 hq)).1
        · exact (List.mem_filter.1 hq).1
      have hlk : mapLookup G q.1 = some q.2 :=
        mapLookup_of_mem_nodup (by cases q; exact hqG) hGnd
      exact ⟨q.2, hlk, rfl, rfl, sorted_nodup (hwf.setsSorted q hqG).1, fun x => by simp⟩
    · intro q hq
      have := (List.mem_filter.1 (List.mem_reverse.1 hq)).2
      exact List.isEmpty_iff.1 (by simpa using this)
    · intro q hq
      have := (List.mem_filter.1 hq).2
      intro hh
      rw [hh] at this
      simp at this
    · intro j k hjk
      simp at hjk
  have hfuel : ((G.filter (fun p => p.2.parents.isEmpty)).reverse).length +
      2 * (G.filter (fun p => !p.2.parents.isEmpty)).length < 2 * G.length + 1 := by
    have hlen := hpart.length_eq
    simp only [List.length_append, mapKeys, List.length_map, List.length_reverse] at hlen
    have ht : (G.filter (fun p => !p.2.parents.isEmpty)).length ≤ G.length :=
      List.length_filter_le _ _
    simp only [List.length_reverse]
    omega
  have := flattenLoop_spec G hwf (2 * G.length + 1)
    ((G.filter (fun p => p.2.parents.isEmpty)).reverse)
    (G.filter (fun p => !p.2.parents.isEmpty)) [] hfuel hinv0
  exact this

theorem loopInv_final_perm {G : Dag} {tailsF : Dag} {outF : List Nat}
    (h : LoopInv G [] tailsF outF) :
    (outF ++ mapKeys tailsF).Perm (mapKeys G) := by
  have := h.perm
  simpa using this

theorem loopInv_ok_perm {G : Dag} {outF : List Nat} (h : LoopInv G [] [] outF) :
    outF.Perm (mapKeys G) := by
  have := h.perm
  simpa using this

theorem loopInv_ok_nodup {G : Dag} (hwf : G.WellFormed) {outF : List Nat}
    (h : LoopInv G [] [] outF) : outF.Nodup :=
  (loopInv_ok_perm h).nodup_iff.2 (sorted_nodup hwf.sorted)

theorem loopInv_ok_parent_before {G : Dag} {outF : List Nat}
    (h : LoopInv G [] [] outF) {p k : Nat} (hp : ParentOf G p k) :
    Before p k outF := by
  have hkG : k ∈ mapKeys G := by
    obtain ⟨n, hn, _⟩ := hp
    exact mapLookup_isSome_iff.1 (by rw [hn]; rfl)
  have hkF : k ∈ outF := (loopInv_ok_perm h).mem_iff.2 hkG
  obtain ⟨j, hj⟩ := List.mem_iff_getElem?.1 hkF
  obtain ⟨i, hij, hi⟩ := h.orderInv j k hj p hp
  exact ⟨i, j, hij, hi, hj⟩

theorem loopInv_ok_edge_before {G : Dag} (hwf : G.WellFormed) {outF : List Nat}
    (h : LoopInv G [] [] outF) {a b : Nat} (he : EdgeTo G a b) :
    Before a b outF :=
  loopInv_ok_parent_before h (hwf.sym1 a b he)

theorem loopInv_ok_transGen_before {G : Dag} (hwf : G.WellFormed) {outF : List Nat}
    (h : LoopInv G [] [] outF) {a b : Nat}
    (ht : Relation.TransGen (EdgeTo G) a b) : Before a b outF := by
  induction ht with
  | single he => exact loopInv_ok_edge_before hwf h he
  | tail _ he ih =>
    exact Before.trans_nodup (loopInv_ok_nodup hwf h) ih
      (loopInv_ok_edge_before hwf h he)

theorem loopInv_ok_acyclic {G : Dag} (hwf : G.WellFormed) {outF : List Nat}
    (h : LoopInv G [] [] outF) : ¬ G.HasCycle := by
  rintro ⟨k, hk⟩
  exact before_irrefl_nodup (loopInv_ok_nodup hwf h)
    (loopInv_ok_transGen_before hwf h hk)

theorem loopInv_err_hasCycle {G : Dag} (hwf : G.WellFormed) {outF : List Nat}
    {tailsF : Dag} (hne : tailsF ≠ []) (h : LoopInv G [] tailsF outF) :
    G.HasCycle := by
  have hSne : mapKeys tailsF ≠ [] := by
    cases tailsF with
    | nil => exact absurd rfl hne
    | cons t ts => simp
  have hpred : ∀ k ∈ mapKeys tailsF,
      ∃ p, p ∈ mapKeys tailsF ∧ EdgeTo G p k := by
    intro k hk
    obtain ⟨q, hq, hq1⟩ := List.mem_map.1 hk
    obtain ⟨n, hn, _, _, _, hiff⟩ := h.entry q (List.mem_append.2 (Or.inr hq))
    have hpne := h.tailsNe q hq
    obtain ⟨p, hp⟩ := List.exists_mem_of_ne_nil _ hpne
    have hmem := (hiff p).1 hp
    have hpar : ParentOf G p q.1 := ⟨n, hn, hmem.1⟩
    have hedge : EdgeTo G p q.1 := hwf.sym2 _ _ hpar
    have hpG : p ∈ mapKeys G := by
      obtain ⟨np, hnp, _⟩ := hedge
      exact mapLookup_isSome_iff.1 (by rw [hnp]; rfl)
    have hpS : p ∈ mapKeys tailsF := by
      rcases List.mem_append.1 ((loopInv_final_perm h).mem_iff.2 hpG) with ho | hs
      · exact absurd ho hmem.2
      · exact hs
    exact ⟨p, hpS, hq1 ▸ hedge⟩
  choose! g hgS hgE using hpred
  obtain ⟨k0, hk0⟩ := List.exists_mem_of_ne_nil _ hSne
  have hseq : ∀ n : Nat, g^[n] k0 ∈ mapKeys tailsF := by
    intro n
    induction n with
    | zero => simpa using hk0
    | succ m ihm =>
      rw [Function.iterate_succ_apply']
      exact hgS _ ihm
  have hcard : (mapKeys tailsF).toFinset.card <
      (Finset.range ((mapKeys tailsF).length + 1)).card := by
    rw [Finset.card_range]
    exact Nat.lt_succ_of_le (List.toFinset_card_le _)
  obtain ⟨i, hi, j, hj, hij, hfeq⟩ :=
    Finset.exists_ne_map_eq_of_card_lt_of_maps_to hcard
      (fun n _ => List.mem_toFinset.2 (hseq n))
  have hchain : ∀ d m, 0 < d →
      Relation.TransGen (EdgeTo G) (g^[m + d] k0) (g^[m] k0) := by
    intro d
    induction d with
    | zero => intro m h0; omega
    | succ e ihe =>
      intro m _
      cases Nat.eq_zero_or_pos e with
      | inl h0 =>
        subst h0
        rw [show m + 1 = m + 1 from rfl, Function.iterate_succ_apply']
        exact Relation.TransGen.single (hgE _ (hseq m))
      | inr hpos =>
        have h1 := ihe m hpos
        have h2 : EdgeTo G (g^[m + e + 1] k0) (g^[m + e] k0) := by
          rw [Function.iterate_succ_apply']
          exact hgE _ (hseq (m + e))
        exact Relation.TransGen.head h2 h1
  rcases lt_or_gt_of_ne hij with hlt | hgt
  · have hc := hchain (j - i) i (by omega)
    rw [show i + (j - i) = j from by omega] at hc
    rw [← hfeq] at hc
    exact ⟨g^[i] k0, hc⟩
  · have hc := hchain (i - j) j (by omega)
    rw [show j + (i - j) = i from by omega] at hc
    rw [hfeq] at hc
    exact ⟨g^[j] k0, hc⟩

/-- b immediately follows a somewhere in the stop sequence t. -/
def Adj (t : List Nat) (a b : Nat) : Prop :=
  ∃ i : Nat, t[i]? = some a ∧ t[i + 1]? = some b

/-- Consecutive (parent, child) pairs recorded while walking a trip suffix
l with current parent p. -/
def walkPairs : Option Nat → List Nat → List (Nat × Nat)
  | _, [] => []
  | none, s :: rest => walkPairs (some s) rest
  | some p, s :: rest => (p, s) :: walkPairs (some s) rest

theorem adj_cons_iff {p s : Nat} {rest : List Nat} {a b : Nat} :
    Adj (p :: s :: rest) a b ↔ (a = p ∧ b = s) ∨ Adj (s :: rest) a b := by
  constructor
  · rintro ⟨i, h1, h2⟩
    cases i with
    | zero =>
      simp only [List.getElem?_cons_zero] at h1
      simp at h2
      injection h1 with h1
      exact Or.inl ⟨h1.symm, h2.symm⟩
    | succ i' =>
      rw [List.getElem?_cons_succ] at h1
      rw [List.getElem?_cons_succ] at h2
      exact Or.inr ⟨i', h1, h2⟩
  · rintro (⟨rfl, rfl⟩ | ⟨i, h1, h2⟩)
    · exact ⟨0, by simp, by simp⟩
    · exact ⟨i + 1, by rw [List.getElem?_cons_succ]; exact h1,
        by rw [List.getElem?_cons_succ]; exact h2⟩

theorem adj_singleton {p a b : Nat} : ¬ Adj [p] a b := by
  rintro ⟨i, h1, h2⟩
  have := (List.getElem?_eq_some.1 h2).1
  simp at this

theorem walkPairs_some_iff {l : List Nat} :
    ∀ {p a b : Nat}, (a, b) ∈ walkPairs (some p) l ↔ Adj (p :: l) a b := by
  induction l with
  | nil =>
    intro p a b
    simp only [walkPairs, List.not_mem_nil, false_iff]
    exact adj_singleton
  | cons s rest ih =>
    intro p a b
    simp only [walkPairs, List.mem_cons, Prod.mk.injEq]
    rw [adj_cons_iff, ih]

theorem walkPairs_none_iff {l : List Nat} {a b : Nat} :
    (a, b) ∈ walkPairs none l ↔ Adj l a b := by
  cases l with
  | nil =>
    simp only [walkPairs, List.not_mem_nil, false_iff]
    rintro ⟨i, h1, _⟩
    have := (List.getElem?_eq_some.1 h1).1
    simp at this
  | cons s rest =>
    show (a, b) ∈ walkPairs (some s) rest ↔ _
    rw [walkPairs_some_iff]

theorem insertTripStops_spec (l : List Nat) :
    ∀ (d : Dag) (p : Option Nat), (mapKeys d).Pairwise (· < ·) →
    (∀ pk, p = some pk → pk ∈ mapKeys d) →
    (insertTripStops d p l).2 = true
    ∧ (∀ k, k ∈ mapKeys (insertTripStops d p l).1 ↔ k ∈ l ∨ k ∈ mapKeys d)
    ∧ (∀ a b, EdgeTo (insertTripStops d p l).1 a b ↔
        EdgeTo d a b ∨ (a, b) ∈ walkPairs p l)
    ∧ (∀ a b, ParentOf (insertTripStops d p l).1 a b ↔
        ParentOf d a b ∨ (a, b) ∈ walkPairs p l)
    ∧ (mapKeys (insertTripStops d p l).1).Pairwise (· < ·)
    ∧ (Reachable d → Reachable (insertTripStops d p l).1) := by
  induction l with
  | nil =>
    intro d p hs hp
    refine ⟨rfl, by simp [insertTripStops], ?_, ?_, hs, fun h => h⟩
    · intro a b
      cases p <;> simp [insertTripStops, walkPairs]
    · intro a b
      cases p <;> simp [insertTripStops, walkPairs]
  | cons s rest ih =>
    intro d p hs hp
    have hflag : (d.insert_child p s).2 = true := by
      cases p with
      | none => rfl
      | some pk =>
        rw [insert_child_some_flag hs]
        have : pk ∈ mapKeys d := hp pk rfl
        rw [Bool.or_eq_true]
        exact Or.inr (mapLookup_isSome_iff.2 this)
    have hstep : insertTripStops d p (s :: rest)
        = insertTripStops (d.insert_child p s).1 (some s) rest := by
      simp only [insertTripStops, hflag]
      simp
    have hs2 := insert_child_sorted hs p s
    have hsmem : s ∈ mapKeys (d.insert_child p s).1 :=
      (insert_child_keys p s s).2 (Or.inl rfl)
    obtain ⟨ihflag, ihkeys, ihedge, ihparent, ihsorted, ihreach⟩ :=
      ih (d.insert_child p s).1 (some s) hs2
        (fun pk hpk => by injection hpk with hh; exact hh ▸ hsmem)
    rw [hstep]
    refine ⟨ihflag, ?_, ?_, ?_, ihsorted, ?_⟩
    · intro k
      rw [ihkeys k, insert_child_keys p s k]
      simp only [List.mem_cons]
      tauto
    · intro a b
      rw [ihedge a b]
      cases p with
      | none =>
        rw [edge_insert_none hs]
        show _ ↔ EdgeTo d a b ∨ (a, b) ∈ walkPairs (some s) rest
        tauto
      | some pk =>
        rw [edge_insert_some hs hflag]
        show _ ↔ EdgeTo d a b ∨ (a, b) ∈ (pk, s) :: walkPairs (some s) rest
        simp only [List.mem_cons, Prod.mk.injEq]
        tauto
    · intro a b
      rw [ihparent a b]
      cases p with
      | none =>
        rw [parent_insert_none hs]
        show _ ↔ ParentOf d a b ∨ (a, b) ∈ walkPairs (some s) rest
        tauto
      | some pk =>
        rw [parent_insert_some hs hflag]
        show _ ↔ ParentOf d a b ∨ (a, b) ∈ (pk, s) :: walkPairs (some s) rest
        simp only [List.mem_cons, Prod.mk.injEq]
        tauto
    · intro hr
      have hic : d.insert_child p s = ((d.insert_child p s).1, true) := by
        rw [← hflag]
      exact ihreach (Reachable.step hr hic)

theorem buildDag_spec (trips : List (List Nat)) :
    ∀ d : Dag, (mapKeys d).Pairwise (· < ·) →
    (buildDag d trips).2 = true
    ∧ (∀ k, k ∈ mapKeys (buildDag d trips).1 ↔
        (∃ t ∈ trips, k ∈ t) ∨ k ∈ mapKeys d)
    ∧ (∀ a b, EdgeTo (buildDag d trips).1 a b ↔
        EdgeTo d a b ∨ ∃ t ∈ trips, Adj t a b)
    ∧ (∀ a b, ParentOf (buildDag d trips).1 a b ↔
        ParentOf d a b ∨ ∃ t ∈ trips, Adj t a b)
    ∧ (mapKeys (buildDag d trips).1).Pairwise (· < ·)
    ∧ (Reachable d → Reachable (buildDag d trips).1) := by
  induction trips with
  | nil =>
    intro d hs
    exact ⟨rfl, by simp [buildDag], by simp [buildDag], by simp [buildDag], hs,
      fun h => h⟩
  | cons t rest ih =>
    intro d hs
    obtain ⟨tflag, tkeys, tedge, tparent, tsorted, treach⟩ :=
      insertTripStops_spec t d none hs (by intro pk h; cases h)
    have hstep : buildDag d (t :: rest)
        = buildDag (insertTripStops d none t).1 rest := by
      simp only [buildDag, tflag]
      simp
    obtain ⟨ihflag, ihkeys, ihedge, ihparent, ihsorted, ihreach⟩ :=
      ih (insertTripStops d none t).1 tsorted
    rw [hstep]
    refine ⟨ihflag, ?_, ?_, ?_, ihsorted, fun hr => ihreach (treach hr)⟩
    · intro k
      rw [ihkeys k, tkeys k]
      constructor
      · rintro (⟨t2, ht2, hk⟩ | hk | hk)
        · exact Or.inl ⟨t2, List.mem_cons_of_mem _ ht2, hk⟩
        · exact Or.inl ⟨t, List.mem_cons_self _ _, hk⟩
        · exact Or.inr hk
      · rintro (⟨t2, ht2, hk⟩ | hk)
        · rcases List.mem_cons.1 ht2 with rfl | ht2
          · exact Or.inr (Or.inl hk)
          · exact Or.inl ⟨t2, ht2, hk⟩
        · exact Or.inr (Or.inr hk)
    · intro a b
      rw [ihedge a b, tedge a b, walkPairs_none_iff]
      constructor
      · rintro ((he | ha) | ⟨t2, ht2, ha⟩)
        · exact Or.inl he
        · exact Or.inr ⟨t, List.mem_cons_self _ _, ha⟩
        · exact Or.inr ⟨t2, List.mem_cons_of_mem _ ht2, ha⟩
      · rintro (he | ⟨t2, ht2, ha⟩)
        · exact Or.inl (Or.inl he)
        · rcases List.mem_cons.1 ht2 with rfl | ht2
          · exact Or.inl (Or.inr ha)
          · exact Or.inr ⟨t2, ht2, ha⟩
    · intro a b
      rw [ihparent a b, tparent a b, walkPairs_none_iff]
      constructor
      · rintro ((he | ha) | ⟨t2, ht2, ha⟩)
        · exact Or.inl he
        · exact Or.inr ⟨t, List.mem_cons_self _ _, ha⟩
        · exact Or.inr ⟨t2, List.mem_cons_of_mem _ ht2, ha⟩
      · rintro (he | ⟨t2, ht2, ha⟩)
        · exact Or.inl (Or.inl he)
        · rcases List.mem_cons.1 ht2 with rfl | ht2
          · exact Or.inl (Or.inr ha)
          · exact Or.inr ⟨t2, ht2, ha⟩

theorem edge_new {a b : Nat} : ¬ EdgeTo Dag.new a b := by
  rintro ⟨n, hn, _⟩
  simp [Dag.new, mapLookup] at hn

theorem parent_new {a b : Nat} : ¬ ParentOf Dag.new a b := by
  rintro ⟨n, hn, _⟩
  simp [Dag.new, mapLookup] at hn

theorem mergeTrips_eq_flatten (trips : List (List Nat)) :
    ∃ G : Dag, buildDag Dag.new trips = (G, true) ∧ G.WellFormed
    ∧ (∀ k, k ∈ mapKeys G ↔ ∃ t ∈ trips, k ∈ t)
    ∧ (∀ a b, EdgeTo G a b ↔ ∃ t ∈ trips, Adj t a b)
    ∧ (∀ a b, ParentOf G a b ↔ ∃ t ∈ trips, Adj t a b)
    ∧ mergeTrips trips = G.flatten := by
  obtain ⟨hflag, hkeys, hedge, hparent, hsorted, hreach⟩ :=
    buildDag_spec trips Dag.new (by simp [Dag.new])
  refine ⟨(buildDag Dag.new trips).1, by rw [← hflag],
    reachable_wf (hreach Reachable.empty), ?_, ?_, ?_, ?_⟩
  · intro k
    rw [hkeys k]
    simp [Dag.new]
  · intro a b
    rw [hedge a b]
    simp only [or_iff_right_iff_imp]
    intro he
    exact absurd he edge_new
  · intro a b
    rw [hparent a b]
    simp only [or_iff_right_iff_imp]
    intro he
    exact absurd he parent_new
  · show (if (buildDag Dag.new trips).2 = true then (buildDag Dag.new trips).1.flatten
        else MergeResult.err .parentNotFound) = (buildDag Dag.new trips).1.flatten
    rw [hflag]
    simp

theorem chain_of_indices {t : List Nat} (R : Nat → Nat → Prop)
    (hR : ∀ a b, Adj t a b → R a b) :
    ∀ d i u v, 0 < d → t[i]? = some u → t[i + d]? = some v →
      Relation.TransGen R u v := by
  intro d
  induction d with
  | zero => intro i u v h0; omega
  | succ e ihe =>
    intro i u v _ hu hv
    cases Nat.eq_zero_or_pos e with
    | inl h0 =>
      subst h0
      exact Relation.TransGen.single (hR u v ⟨i, hu, by simpa using hv⟩)
    | inr hpos =>
      have hlen : i + e < t.length := by
        have := (List.getElem?_eq_some.1 hv).1
        omega
      have hw : t[i + e]? = some (t.get ⟨i + e, hlen⟩) := by
        simp [List.getElem?_eq_getElem hlen]
      refine (ihe i u _ hpos hu hw).tail (hR _ v ⟨i + e, hw, ?_⟩)
      rw [show i + e + 1 = i + (e + 1) from rfl]
      exact hv

theorem before_transGen {t : List Nat} {x y : Nat} (h : Before x y t)
    {R : Nat → Nat → Prop} (hR : ∀ a b, Adj t a b → R a b) :
    Relation.TransGen R x y := by
  obtain ⟨i, j, hij, hx, hy⟩ := h
  refine chain_of_indices R hR (j - i) i x y (by omega) hx ?_
  rw [show i + (j - i) = j from by omega]
  exact hy

theorem flatten_cycle_iff {G : Dag} (hwf : G.WellFormed) :
    G.flatten = .err .cycle ↔ G.HasCycle := by
  rcases flatten_spec G hwf with ⟨outF, hok, hinv⟩ | ⟨outF, tailsF, herr, hne, hinv⟩
  · rw [hok]
    exact iff_of_false (by simp) (loopInv_ok_acyclic hwf hinv)
  · rw [herr]
    exact iff_of_true rfl (loopInv_err_hasCycle hwf hne hinv)

theorem flatten_ne_panicked {G : Dag} (hwf : G.WellFormed) :
    G.flatten ≠ .panicked := by
  rcases flatten_spec G hwf with ⟨outF, hok, _⟩ | ⟨outF, tailsF, herr, _, _⟩
  · rw [hok]; simp
  · rw [herr]; simp

theorem mergeTrips_cases (trips : List (List Nat)) :
    (∃ out, mergeTrips trips = .ok out) ∨ mergeTrips trips = .err .cycle := by
  obtain ⟨G, hG, hwf, _, _, _, heq⟩ := mergeTrips_eq_flatten trips
  rw [heq]
  rcases flatten_spec G hwf with ⟨outF, hok, _⟩ | ⟨outF, tailsF, herr, _, _⟩
  · exact Or.inl ⟨outF, hok⟩
  · exact Or.inr herr

theorem mergeTrips_ok_facts {trips : List (List Nat)} {out : List Nat}
    (h : mergeTrips trips = .ok out) :
    out.Nodup ∧ (∀ k, k ∈ out ↔ ∃ t ∈ trips, k ∈ t)
    ∧ (∀ t ∈ trips, ∀ x y, Before x y t → Before x y out) := by
  obtain ⟨G, hG, hwf, hkeys, hedge, hparent, heq⟩ := mergeTrips_eq_flatten trips
  rw [heq] at h
  rcases flatten_spec G hwf with ⟨outF, hok, hinv⟩ | ⟨outF, tailsF, herr, _, _⟩
  · rw [hok] at h
    injection h with h
    subst h
    refine ⟨loopInv_ok_nodup hwf hinv, ?_, ?_⟩
    · intro k
      rw [(loopInv_ok_perm hinv).mem_iff]
      exact hkeys k
    · intro t ht x y hb
      have htg : Relation.TransGen (EdgeTo G) x y :=
        before_transGen hb (fun a b ha => (hedge a b).2 ⟨t, ht, ha⟩)
      exact loopInv_ok_transGen_before hwf hinv htg
  · rw [herr] at h
    cases h

theorem mergeTrips_cycle_iff (trips : List (List Nat)) :
    mergeTrips trips = .err .cycle ↔
      ∃ k, Relation.TransGen (fun a b => ∃ t ∈ trips, Adj t a b) k k := by
  obtain ⟨G, hG, hwf, hkeys, hedge, hparent, heq⟩ := mergeTrips_eq_flatten trips
  rw [heq, flatten_cycle_iff hwf]
  unfold Dag.HasCycle
  constructor
  · rintro ⟨k, hk⟩
    exact ⟨k, hk.mono (fun a b he => (hedge a b).1 he)⟩
  · rintro ⟨k, hk⟩
    exact ⟨k, hk.mono (fun a b he => (hedge a b).2 he)⟩

/-!
Driver layer: src/types.rs (RouteDir, Direction), src/multimap.rs
(MultiMap as a key-sorted association list of buckets) and
src/merge.rs stops_by_route.  Rust String route ids are ordered
byte-lexicographically; we key the order on the character list of the id,
which coincides with it on ASCII ids.  Option ordering in Rust places
None before Some, which is the WithBot order.
-/

/-- gtfs_structures::DirectionType. -/
inductive DirectionType
  | inbound
  | outbound
deriving DecidableEq

/-- Direction (src/types.rs): derive order None < Inbound < Outbound. -/
inductive Direction
  | none
  | inbound
  | outbound
deriving DecidableEq

/-- Ordinal of a Direction as given by its declaration order (the Rust
derived Ord). -/
def Direction.toNat : Direction → Nat
  | .none => 0
  | .inbound => 1
  | .outbound => 2

/-- RouteDir (src/types.rs): optional route id plus direction, ordered by
route id first (None before Some, ids lexicographic) then direction. -/
structure RouteDir where
  route_id : Option String
  direction : Direction
deriving DecidableEq

/-- Route id as an element of the order in which Rust compares it: None
below every Some, ids by their character lists. -/
def RouteDir.idKey (r : RouteDir) : WithBot (List Char) :=
  (r.route_id.map String.toList : Option (List Char))

/-- Sort key realising the derived lexicographic Ord of RouteDir. -/
def RouteDir.keyOf (r : RouteDir) : (WithBot (List Char)) ×ₗ Nat :=
  toLex (r.idKey, r.direction.toNat)

theorem RouteDir.keyOf_inj : Function.Injective RouteDir.keyOf := by
  rintro ⟨r1, d1⟩ ⟨r2, d2⟩ h
  unfold RouteDir.keyOf RouteDir.idKey at h
  have h2 := congrArg (fun x => (ofLex x)) h
  simp only at h2
  have ha : (r1.map String.toList : Option (List Char)) = r2.map String.toList :=
    congrArg Prod.fst h2
  have hb : d1.toNat = d2.toNat := congrArg Prod.snd h2
  have hd : d1 = d2 := by
    cases d1 <;> cases d2 <;> simp [Direction.toNat] at hb ⊢
  have hr : r1 = r2 := by
    cases r1 with
    | none =>
      cases r2 with
      | none => rfl
      | some s => simp [Option.map] at ha
    | some s1 =>
      cases r2 with
      | none => simp [Option.map] at ha
      | some s2 =>
        simp only [Option.map] at ha
        injection ha with ha2
        rw [String.toList_inj.mp ha2]
  rw [hd, hr]

instance : LinearOrder RouteDir := LinearOrder.lift' RouteDir.keyOf RouteDir.keyOf_inj

/-- The RouteDir order is: route id first (None before Some, ids
lexicographic on their characters), then direction ordinal. -/
theorem RouteDir.lt_iff (a b : RouteDir) :
    a < b ↔ a.idKey < b.idKey
      ∨ (a.route_id = b.route_id ∧ a.direction.toNat < b.direction.toNat) := by
  have h0 : a < b ↔ a.keyOf < b.keyOf := Iff.rfl
  rw [h0]
  unfold RouteDir.keyOf
  rw [Prod.Lex.lt_iff]
  constructor
  · rintro (h | ⟨h1, h2⟩)
    · exact Or.inl h
    · refine Or.inr ⟨?_, h2⟩
      unfold RouteDir.idKey at h1
      cases ha : a.route_id <;> cases hb : b.route_id <;>
        rw [ha, hb] at h1 <;> simp [Option.map] at h1 ⊢
      exact String.toList_inj.mp (by injection h1)
  · rintro (h | ⟨h1, h2⟩)
    · exact Or.inl h
    · refine Or.inr ⟨?_, h2⟩
      unfold RouteDir.idKey
      rw [h1]

/-- gtfs_structures::Trip, restricted to the fields the core reads.  The
stops field holds the addresses of the shared stop instances of the
trip's stop_times, in sequence order. -/
structure GTrip where
  route_id : String
  direction_id : Option DirectionType
  trip_short_name : Option String
  stops : List Nat
deriving DecidableEq

/-- Command-line arguments consumed by the grouping (the other fields of
Args do not reach the core). -/
structure Args where
  direction_from_trip_name : Bool
  merge_routes : Bool
deriving DecidableEq

/-- From<Option<DirectionType>> for Direction. -/
def Direction.ofDirectionType : Option DirectionType → Direction
  | Option.none => .none
  | Option.some .inbound => .inbound
  | Option.some .outbound => .outbound

/-- From<Option<u32>> for Direction: even-parity trip numbers are inbound,
odd outbound. -/
def Direction.ofParity : Option Nat → Direction
  | Option.none => .none
  | Option.some x => if x % 2 = 0 then .inbound else .outbound

/-- Direction::from_trip: either parse the trip short name and use its
parity, or use the explicit direction_id. -/
def Direction.from_trip (t : GTrip) (direction_from_trip_name : Bool) : Direction :=
  if direction_from_trip_name then
    Direction.ofParity (t.trip_short_name.bind String.toNat?)
  else
    Direction.ofDirectionType t.direction_id

/-- RouteDir::from_trip (src/types.rs). -/
def RouteDir.from_trip (t : GTrip) (args : Args) : RouteDir :=
  { route_id := if args.merge_routes then Option.none else Option.some t.route_id,
    direction := Direction.from_trip t args.direction_from_trip_name }

/-- MultiMap::insert (src/multimap.rs): push the value onto the bucket for
the key, creating the bucket if absent. -/
def mmInsert {K α : Type} [LinearOrder K] (m : List (K × List α)) (k : K) (v : α) :
    List (K × List α) :=
  match mapLookup m k with
  | Option.some _ => mapAdjust k (fun l => l ++ [v]) m
  | Option.none => mapInsert k [v] m

/-- MultiMap::insert_bulk: append a whole ordered sequence to the bucket,
or install it as the bucket if absent. -/
def mmInsertBulk {K α : Type} [LinearOrder K] (m : List (K × List α)) (k : K)
    (vs : List α) : List (K × List α) :=
  match mapLookup m k with
  | Option.some _ => mapAdjust k (fun l => l ++ vs) m
  | Option.none => mapInsert k vs m

/-- Grouping of trips by (route id, direction), in input encounter order
per bucket (the collect into MultiMap in stops_by_route). -/
def tripsByRoute (args : Args) (trips : List GTrip) : List (RouteDir × List GTrip) :=
  trips.foldl (fun m t => mmInsert m (RouteDir.from_trip t args) t) []

/-- Result of stops_by_route: the consolidated mapping, or the first
group's error decorated with the offending (route, direction). -/
inductive RunResult
  | ok (m : List (RouteDir × List Nat))
  | err (route : RouteDir) (e : MergeErr)
  | panicked
  | outOfFuel
deriving DecidableEq

/-- Loop of stops_by_route over the grouped trips, in sorted key order;
the ? on merge_trips stops at the first failing group and wraps its error
with the group key. -/
def runGroups : List (RouteDir × List GTrip) → List (RouteDir × List Nat) → RunResult
  | [], acc => .ok acc
  | (rd, ts) :: rest, acc =>
    match mergeTrips (ts.map GTrip.stops) with
    | .ok out => runGroups rest (mmInsertBulk acc rd out)
    | .err e => .err rd e
    | .panicked => .panicked
    | .outOfFuel => .outOfFuel

/-- stops_by_route (src/merge.rs). -/
def stops_by_route (trips : List GTrip) (args : Args) : RunResult :=
  runGroups (tripsByRoute args trips) []

theorem sorted_eq_of_mem_iff {K : Type} [LinearOrder K] :
    ∀ {l1 l2 : List K}, l1.Pairwise (· < ·) → l2.Pairwise (· < ·) →
    (∀ x, x ∈ l1 ↔ x ∈ l2) → l1 = l2 := by
  intro l1
  induction l1 with
  | nil =>
    intro l2 _ _ h
    cases l2 with
    | nil => rfl
    | cons y ys => exact absurd ((h y).2 (List.mem_cons_self _ _)) (by simp)
  | cons x xs ih =>
    intro l2 hs1 hs2 h
    cases l2 with
    | nil => exact absurd ((h x).1 (List.mem_cons_self _ _)) (by simp)
    | cons y ys =>
      rw [List.pairwise_cons] at hs1 hs2
      have hxy : x = y := by
        rcases List.mem_cons.1 ((h x).1 (List.mem_cons_self _ _)) with h1 | h1
        · exact h1
        · rcases List.mem_cons.1 ((h y).2 (List.mem_cons_self _ _)) with h2 | h2
          · exact h2.symm
          · exact absurd (hs1.1 y h2) (lt_asymm (hs2.1 x h1))
      subst hxy
      congr 1
      apply ih hs1.2 hs2.2
      intro z
      constructor
      · intro hz
        rcases List.mem_cons.1 ((h z).1 (List.mem_cons_of_mem _ hz)) with h1 | h1
        · exact absurd (hs1.1 z hz) (h1 ▸ lt_irrefl z)
        · exact h1
      · intro hz
        rcases List.mem_cons.1 ((h z).2 (List.mem_cons_of_mem _ hz)) with h1 | h1
        · exact absurd (hs2.1 z hz) (h1 ▸ lt_irrefl z)
        · exact h1

theorem mapInsert_append {K α : Type} [LinearOrder K] {l : List (K × α)} {k : K}
    {v : α} (hgt : ∀ x ∈ mapKeys l, x < k) : mapInsert k v l = l ++ [(k, v)] := by
  induction l with
  | nil => rfl
  | cons p rest ih =>
    have hp : p.1 < k := hgt p.1 (by simp)
    have e : mapInsert k v (p :: rest) = p :: mapInsert k v rest := by
      simp only [mapInsert, if_neg (lt_asymm hp), if_neg (fun hh : k = p.1 =>
        absurd (hh ▸ hp) (lt_irrefl _))]
    rw [e, ih (fun x hx => hgt x (by simp [hx]))]
    rfl

theorem mem_keys_mmInsert {K α : Type} [LinearOrder K] {m : List (K × List α)}
    {key : K} {v : α} (k : K) :
    k ∈ mapKeys (mmInsert m key v) ↔ k = key ∨ k ∈ mapKeys m := by
  unfold mmInsert
  cases hl : mapLookup m key with
  | some b =>
    rw [show mapKeys (mapAdjust key (fun l => l ++ [v]) m) = mapKeys m from
      mapKeys_mapAdjust]
    constructor
    · exact Or.inr
    · rintro (rfl | hk)
      · exact mapLookup_isSome_iff.1 (by rw [hl]; rfl)
      · exact hk
  | none => exact mapKeys_mapInsert k

theorem sorted_keys_mmInsert {K α : Type} [LinearOrder K] {m : List (K × List α)}
    {key : K} {v : α} (hs : (mapKeys m).Pairwise (· < ·)) :
    (mapKeys (mmInsert m key v)).Pairwise (· < ·) := by
  unfold mmInsert
  cases hl : mapLookup m key with
  | some b =>
    rw [show mapKeys (mapAdjust key (fun l => l ++ [v]) m) = mapKeys m from
      mapKeys_mapAdjust]
    exact hs
  | none => exact mapKeys_sorted_mapInsert hs

theorem tripsByRoute_go_sorted (args : Args) :
    ∀ (trips : List GTrip) (m : List (RouteDir × List GTrip)),
    (mapKeys m).Pairwise (· < ·) →
    (mapKeys (trips.foldl (fun m t => mmInsert m (RouteDir.from_trip t args) t) m)
      ).Pairwise (· < ·) := by
  intro trips
  induction trips with
  | nil => intro m hs; exact hs
  | cons t rest ih =>
    intro m hs
    exact ih _ (sorted_keys_mmInsert hs)

theorem tripsByRoute_go_keys (args : Args) :
    ∀ (trips : List GTrip) (m : List (RouteDir × List GTrip)) (k : RouteDir),
    k ∈ mapKeys (trips.foldl (fun m t => mmInsert m (RouteDir.from_trip t args) t) m)
      ↔ k ∈ mapKeys m ∨ ∃ t ∈ trips, RouteDir.from_trip t args = k := by
  intro trips
  induction trips with
  | nil => intro m k; simp
  | cons t rest ih =>
    intro m k
    rw [show (t :: rest).foldl (fun m t => mmInsert m (RouteDir.from_trip t args) t) m
      = rest.foldl (fun m t => mmInsert m (RouteDir.from_trip t args) t)
        (mmInsert m (RouteDir.from_trip t args) t) from rfl]
    rw [ih, mem_keys_mmInsert]
    constructor
    · rintro ((rfl | hk) | ⟨t2, ht2, hk⟩)
      · exact Or.inr ⟨t, List.mem_cons_self _ _, rfl⟩
      · exact Or.inl hk
      · exact Or.inr ⟨t2, List.mem_cons_of_mem _ ht2, hk⟩
    · rintro (hk | ⟨t2, ht2, hk⟩)
      · exact Or.inl (Or.inr hk)
      · rcases List.mem_cons.1 ht2 with rfl | ht2
        · exact Or.inl (Or.inl hk.symm)
        · exact Or.inr ⟨t2, ht2, hk⟩

theorem tripsByRoute_sorted (args : Args) (trips : List GTrip) :
    (mapKeys (tripsByRoute args trips)).Pairwise (· < ·) :=
  tripsByRoute_go_sorted args trips [] (by simp)

theorem tripsByRoute_keys (args : Args) (trips : List GTrip) (k : RouteDir) :
    k ∈ mapKeys (tripsByRoute args trips) ↔
      ∃ t ∈ trips, RouteDir.from_trip t args = k := by
  rw [show tripsByRoute args trips
    = trips.foldl (fun m t => mmInsert m (RouteDir.from_trip t args) t) [] from rfl]
  rw [tripsByRoute_go_keys]
  simp

theorem tripsByRoute_keys_perm (args : Args) {t1 t2 : List GTrip} (hp : t1.Perm t2) :
    mapKeys (tripsByRoute args t1) = mapKeys (tripsByRoute args t2) := by
  apply sorted_eq_of_mem_iff (tripsByRoute_sorted args t1) (tripsByRoute_sorted args t2)
  intro k
  rw [tripsByRoute_keys, tripsByRoute_keys]
  constructor
  · rintro ⟨t, ht, hk⟩
    exact ⟨t, hp.mem_iff.1 ht, hk⟩
  · rintro ⟨t, ht, hk⟩
    exact ⟨t, hp.mem_iff.2 ht, hk⟩

theorem runGroups_ok_keys :
    ∀ (groups : List (RouteDir × List GTrip)) (acc : List (RouteDir × List Nat)),
    (mapKeys acc ++ mapKeys groups).Pairwise (· < ·) →
    ∀ m, runGroups groups acc = .ok m → mapKeys m = mapKeys acc ++ mapKeys groups := by
  intro groups
  induction groups with
  | nil =>
    intro acc hs m h
    injection h with h
    rw [← h]
    simp
  | cons g rest ih =>
    obtain ⟨rd, ts⟩ := g
    intro acc hs m h
    cases hm : mergeTrips (ts.map GTrip.stops) with
    | ok out =>
      have hstep : runGroups ((rd, ts) :: rest) acc
          = runGroups rest (mmInsertBulk acc rd out) := by
        simp only [runGroups, hm]
      rw [hstep] at h
      have hcross := (List.pairwise_append.1 hs).2.2
      have hlt : ∀ x ∈ mapKeys acc, x < rd :=
        fun x hx => hcross x hx rd (by simp)
      have hrdnotin : rd ∉ mapKeys acc := fun hmemacc => lt_irrefl rd (hlt rd hmemacc)
      have hacc2 : mmInsertBulk acc rd out = acc ++ [(rd, out)] := by
        unfold mmInsertBulk
        cases hlk : mapLookup acc rd with
        | some b => exact absurd (mapLookup_isSome_iff.1 (by rw [hlk]; rfl)) hrdnotin
        | none => exact mapInsert_append hlt
      rw [hacc2] at h
      have hs2 : (mapKeys (acc ++ [(rd, out)]) ++ mapKeys rest).Pairwise (· < ·) := by
        have he : mapKeys (acc ++ [(rd, out)]) ++ mapKeys rest
            = mapKeys acc ++ mapKeys ((rd, ts) :: rest) := by
          simp [mapKeys, List.append_assoc]
        rw [he]
        exact hs
      have := ih (acc ++ [(rd, out)]) hs2 m h
      rw [this]
      simp [mapKeys, List.append_assoc]
    | err e =>
      have hstep : runGroups ((rd, ts) :: rest) acc = .err rd e := by
        simp only [runGroups, hm]
      rw [hstep] at h
      cases h
    | panicked =>
      have hstep : runGroups ((rd, ts) :: rest) acc = .panicked := by
        simp only [runGroups, hm]
      rw [hstep] at h
      cases h
    | outOfFuel =>
      have hstep : runGroups ((rd, ts) :: rest) acc = .outOfFuel := by
        simp only [runGroups, hm]
      rw [hstep] at h
      cases h

theorem runGroups_err :
    ∀ (groups : List (RouteDir × List GTrip)) (acc : List (RouteDir × List Nat))
      {rd : RouteDir} {ts : List GTrip} {e : MergeErr},
    (rd, ts) ∈ groups → mergeTrips (ts.map GTrip.stops) = .err e →
    ∃ rd2 e2 ts2, runGroups groups acc = .err rd2 e2 ∧ (rd2, ts2) ∈ groups ∧
      mergeTrips (ts2.map GTrip.stops) = .err e2 := by
  intro groups
  induction groups with
  | nil =>
    intro acc rd ts e h
    simp at h
  | cons g rest ih =>
    obtain ⟨rd0, ts0⟩ := g
    intro acc rd ts e hmem hfail
    cases hm : mergeTrips (ts0.map GTrip.stops) with
    | ok out =>
      have hmem2 : (rd, ts) ∈ rest := by
        rcases List.mem_cons.1 hmem with heq | h2
        · exfalso
          have hts : ts = ts0 := congrArg Prod.snd heq
          rw [hts, hm] at hfail
          cases hfail
        · exact h2
      obtain ⟨rd2, e2, ts2, hrun, hmem3, hfail3⟩ :=
        ih (mmInsertBulk acc rd0 out) hmem2 hfail
      refine ⟨rd2, e2, ts2, ?_, List.mem_cons_of_mem _ hmem3, hfail3⟩
      simp only [runGroups, hm]
      exact hrun
    | err e0 =>
      exact ⟨rd0, e0, ts0, by simp only [runGroups, hm], List.mem_cons_self _ _, hm⟩
    | panicked =>
      exfalso
      rcases mergeTrips_cases (ts0.map GTrip.stops) with ⟨o, ho⟩ | ho <;>
        rw [ho] at hm <;> cases hm
    | outOfFuel =>
      exfalso
      rcases mergeTrips_cases (ts0.map GTrip.stops) with ⟨o, ho⟩ | ho <;>
        rw [ho] at hm <;> cases hm

example : mergeTrips [[0, 1, 2], [0, 1, 3, 2]] = .ok [0, 1, 3, 2] := by decide

example : mergeTrips [[5, 7, 5]] = .err .cycle := by decide

/-- C1: order-consistency of consolidation — whenever merge_trips succeeds
on a group's trips, every pair of stops (x, y) with x before y in some
trip's stop-visit sequence appears in that order in the consolidated
output. -/
theorem claim_C1_order_consistency (trips : List (List Nat)) (out : List Nat)
    (h : mergeTrips trips = .ok out) :
    ∀ t ∈ trips, ∀ x y, Before x y t → Before x y out :=
  fun t ht x y hb => (mergeTrips_ok_facts h).2.2 t ht x y hb

theorem claim_C1_witness : Before 1 2 [0, 1, 3, 2] :=
  claim_C1_order_consistency [[0, 1, 2], [0, 1, 3, 2]] [0, 1, 3, 2] (by decide)
    [0, 1, 2] (by decide) 1 2 ⟨1, 2, by omega, by decide, by decide⟩

/-- C2: cycle detection raises-iff — for every well-formed graph, flatten
returns the cycle error exactly when the recorded immediately-follows
edges contain a directed cycle (and the error constructor carries no
ordering); in particular a trip [a, b, a] records edges a→b and b→a and
merge_trips fails with the cycle error. -/
theorem claim_C2_cycle_iff :
    (∀ G : Dag, G.WellFormed → (G.flatten = .err .cycle ↔ G.HasCycle))
    ∧ (∀ a b : Nat, a ≠ b →
        ∃ G, buildDag Dag.new [[a, b, a]] = (G, true) ∧ EdgeTo G a b ∧ EdgeTo G b a
          ∧ mergeTrips [[a, b, a]] = .err .cycle) := by
  constructor
  · intro G hwf
    exact flatten_cycle_iff hwf
  · intro a b _
    obtain ⟨G, hG, hwf, hkeys, hedge, hparent, heq⟩ := mergeTrips_eq_flatten [[a, b, a]]
    have hadj1 : Adj [a, b, a] a b := ⟨0, by simp, by simp⟩
    have hadj2 : Adj [a, b, a] b a := ⟨1, by simp, by simp⟩
    have he1 : EdgeTo G a b := (hedge a b).2 ⟨[a, b, a], by simp, hadj1⟩
    have he2 : EdgeTo G b a := (hedge b a).2 ⟨[a, b, a], by simp, hadj2⟩
    refine ⟨G, hG, he1, he2, ?_⟩
    rw [heq, flatten_cycle_iff hwf]
    exact ⟨a, Relation.TransGen.head he1 (Relation.TransGen.single he2)⟩

theorem claim_C2_witness :
    (Dag.new.flatten = .err .cycle ↔ Dag.new.HasCycle)
    ∧ mergeTrips [[5, 7, 5]] = .err .cycle := by
  refine ⟨claim_C2_cycle_iff.1 Dag.new wf_new, ?_⟩
  obtain ⟨G, _, _, _, hm⟩ := claim_C2_cycle_iff.2 5 7 (by decide)
  exact hm

/-- C3: completeness and distinctness of the output — on success the
returned list holds exactly the stops visited by the group's trips, each
at one position (no duplicates, no extras). -/
theorem claim_C3_complete_distinct (trips : List (List Nat)) (out : List Nat)
    (h : mergeTrips trips = .ok out) :
    out.Nodup ∧ ∀ s, s ∈ out ↔ ∃ t ∈ trips, s ∈ t :=
  ⟨(mergeTrips_ok_facts h).1, (mergeTrips_ok_facts h).2.1⟩

theorem claim_C3_witness :
    ([0, 1, 3, 2] : List Nat).Nodup ∧
      ∀ s, s ∈ ([0, 1, 3, 2] : List Nat) ↔
        ∃ t ∈ [[0, 1, 2], [0, 1, 3, 2]], s ∈ t :=
  claim_C3_complete_distinct [[0, 1, 2], [0, 1, 3, 2]] [0, 1, 3, 2] (by decide)

/-- C7 counterexample: the claim that insert_child with Some(parent) fails
exactly when no node for the parent exists at the time of the call is
false: when parent = child and the child is new, the or_insert for the
child creates the very node the later parent lookup finds, so the call
succeeds although no node for the parent existed on entry. -/
theorem claim_C7_counterexample :
    ¬ (∀ (d : Dag) (p c : Nat),
        (d.insert_child (some p) c).2 = false ↔ mapLookup d p = none) := by
  intro h
  have h2 := (h Dag.new 0 0).2 rfl
  exact absurd h2 (by decide)

/-- C7 amended: insert_child(Some parent, child) fails exactly when no
node for the parent exists at the time of the call and the parent is not
the child itself; and under the documented build order of merge_trips the
failure never occurs (merge_trips never returns the missing-parent
error). -/
theorem claim_C7_missing_parent :
    (∀ (d : Dag) (p c : Nat), (mapKeys d).Pairwise (· < ·) →
      ((d.insert_child (some p) c).2 = false ↔ mapLookup d p = none ∧ p ≠ c))
    ∧ (∀ trips : List (List Nat), mergeTrips trips ≠ .err .parentNotFound) := by
  constructor
  · intro d p c hs
    exact insert_child_fail_iff hs p c
  · intro trips h
    rcases mergeTrips_cases trips with ⟨o, ho⟩ | ho <;> rw [ho] at h <;> cases h

theorem claim_C7_witness :
    ((Dag.insert_child [(1, Node.new 1)] (some 1) 0).2 = false ↔
      mapLookup ([(1, Node.new 1)] : Dag) 1 = none ∧ (1 : Nat) ≠ 0)
    ∧ mergeTrips [[0, 1]] ≠ .err .parentNotFound :=
  ⟨claim_C7_missing_parent.1 [(1, Node.new 1)] 1 0 (by decide),
    claim_C7_missing_parent.2 [[0, 1]]⟩

/-- C9: graphs built from Dag::new by insert_child calls that all
returned Ok are well-formed (sorted distinct keys, value = key, sorted
parent/child sets, and parent/child records symmetric and closed over
existing nodes), and flatten never reaches either panic branch on them. -/
theorem claim_C9_no_panic (d : Dag) (h : Reachable d) :
    d.WellFormed ∧ d.flatten ≠ .panicked :=
  ⟨reachable_wf h, flatten_ne_panicked (reachable_wf h)⟩

theorem claim_C9_witness :
    Dag.WellFormed [(0, Node.new 0)] ∧
      Dag.flatten [(0, Node.new 0)] ≠ .panicked :=
  claim_C9_no_panic [(0, Node.new 0)]
    (Reachable.step (p := none) (c := 0) Reachable.empty (by decide))

/-- C10: insert_child is not atomic on error — when it reports the
missing-parent error, the graph already holds a node for the child (the
one created by this call when the child was absent) whose parent set
contains the missing parent. -/
theorem claim_C10_mutation_on_error (d : Dag) (p c : Nat)
    (hs : (mapKeys d).Pairwise (· < ·))
    (h : (d.insert_child (some p) c).2 = false) :
    ∃ n, mapLookup (d.insert_child (some p) c).1 c = some n ∧ p ∈ n.parents
      ∧ (mapLookup d c = none → n = (Node.new c).add_parent p) := by
  obtain ⟨hp, hpc⟩ := (insert_child_fail_iff hs p c).1 h
  refine ⟨(d.nodeAt c).add_parent p, insert_child_some_fst_child hs hpc, ?_, ?_⟩
  · rw [add_parent_parents]
    exact mem_setInsert.2 (Or.inl rfl)
  · intro hcn
    unfold Dag.nodeAt
    rw [hcn]
    rfl

theorem claim_C10_witness :
    ∃ n, mapLookup ((Dag.new.insert_child (some 1) 0).1) 0 = some n
      ∧ 1 ∈ n.parents ∧ (mapLookup Dag.new 0 = none → n = (Node.new 0).add_parent 1) :=
  claim_C10_mutation_on_error Dag.new 1 0 (by decide) (by decide)

example : stops_by_route [GTrip.mk "r" (some .inbound) Option.none [0, 1, 0]]
    ⟨false, false⟩ = .err ⟨some "r", .inbound⟩ .cycle := by decide

example : stops_by_route [GTrip.mk "r" (some .inbound) Option.none [0, 1]]
    ⟨false, false⟩ = .ok [(⟨some "r", .inbound⟩, [0, 1])] := by decide

/-!
Relabeling of stop addresses.  The consolidation is keyed on the raw
addresses of the shared stop instances, so we study how its result moves
under a relabeling σ of addresses: order-preserving relabelings commute
with the whole pipeline, while mere injective ones do not (see claim C4).
-/

/-- Apply an address relabeling to a node. -/
def mapNode (σ : Nat → Nat) (n : Node) : Node :=
  ⟨σ n.value, n.parents.map σ, n.children.map σ⟩

/-- Apply an address relabeling to a graph. -/
def mapDag (σ : Nat → Nat) (d : Dag) : Dag :=
  d.map (fun q => (σ q.1, mapNode σ q.2))

/-- Apply an address relabeling to a merge result. -/
def MergeResult.mapStops (σ : Nat → Nat) : MergeResult → MergeResult
  | .ok l => .ok (l.map σ)
  | .err e => .err e
  | .panicked => .panicked
  | .outOfFuel => .outOfFuel

theorem map_setInsert {σ : Nat → Nat} (hσ : StrictMono σ) (x : Nat) (s : List Nat) :
    (setInsert x s).map σ = setInsert (σ x) (s.map σ) := by
  induction s with
  | nil => rfl
  | cons y rest ih =>
    by_cases h1 : x < y
    · simp only [setInsert, if_pos h1, if_pos (hσ h1), List.map_cons]
    · by_cases h2 : x = y
      · subst h2
        simp only [setInsert, if_neg h1, if_neg (lt_irrefl (σ x)), List.map_cons]
        simp
      · have h1' : ¬ σ x < σ y := fun hh => h1 (hσ.lt_iff_lt.1 hh)
        have h2' : ¬ σ x = σ y := fun hh => h2 (hσ.injective hh)
        simp only [setInsert, if_neg h1, if_neg h2, List.map_cons,
          if_neg h1', if_neg h2', ih]

theorem map_setRemove {σ : Nat → Nat} (hσ : StrictMono σ) (x : Nat) (s : List Nat) :
    (setRemove x s).1.map σ = (setRemove (σ x) (s.map σ)).1
    ∧ (setRemove x s).2 = (setRemove (σ x) (s.map σ)).2 := by
  induction s with
  | nil => exact ⟨rfl, rfl⟩
  | cons y rest ih =>
    by_cases h : x = y
    · subst h
      simp only [setRemove, if_pos rfl, List.map_cons]
      exact ⟨rfl, rfl⟩
    · have h' : ¬ σ x = σ y := fun hh => h (hσ.injective hh)
      simp only [setRemove, if_neg h, if_neg h', List.map_cons]
      exact ⟨by rw [← ih.1], ih.2⟩

theorem mapKeys_mapDag {σ : Nat → Nat} (d : Dag) :
    mapKeys (mapDag σ d) = (mapKeys d).map σ := by
  induction d with
  | nil => rfl
  | cons p rest ih =>
    simp only [mapDag, List.map_cons, mapKeys_cons] at ih ⊢
    rw [ih]

theorem map_mapLookup {σ : Nat → Nat} (hσ : StrictMono σ) (d : Dag) (k : Nat) :
    mapLookup (mapDag σ d) (σ k) = (mapLookup d k).map (mapNode σ) := by
  induction d with
  | nil => rfl
  | cons p rest ih =>
    by_cases h : p.1 = k
    · simp only [mapDag, List.map_cons, mapLookup, if_pos h,
        if_pos (congrArg σ h)]
      rfl
    · have h' : ¬ σ p.1 = σ k := fun hh => h (hσ.injective hh)
      simp only [mapDag, List.map_cons, mapLookup, if_neg h, if_neg h']
      simp only [mapDag] at ih
      exact ih

theorem map_mapInsert {σ : Nat → Nat} (hσ : StrictMono σ) (d : Dag) (k : Nat) (v : Node) :
    mapDag σ (mapInsert k v d) = mapInsert (σ k) (mapNode σ v) (mapDag σ d) := by
  induction d with
  | nil => rfl
  | cons p rest ih =>
    simp only [mapDag] at ih ⊢
    by_cases h1 : k < p.1
    · simp only [mapInsert, if_pos h1, List.map_cons, if_pos (hσ h1)]
    · by_cases h2 : k = p.1
      · subst h2
        simp only [mapInsert, if_neg h1, if_neg (lt_irrefl (σ p.1)), List.map_cons]
        simp
      · have h1' : ¬ σ k < σ p.1 := fun hh => h1 (hσ.lt_iff_lt.1 hh)
        have h2' : ¬ σ k = σ p.1 := fun hh => h2 (hσ.injective hh)
        simp only [mapInsert, if_neg h1, if_neg h2, List.map_cons,
          if_neg h1', if_neg h2']
        rw [ih]

theorem map_mapAdjust {σ : Nat → Nat} (hσ : StrictMono σ) (d : Dag) (k : Nat)
    {f f' : Node → Node} (hff : ∀ n, mapNode σ (f n) = f' (mapNode σ n)) :
    mapDag σ (mapAdjust k f d) = mapAdjust (σ k) f' (mapDag σ d) := by
  induction d with
  | nil => rfl
  | cons p rest ih =>
    simp only [mapDag] at ih ⊢
    by_cases h : p.1 = k
    · simp only [mapAdjust, if_pos h, List.map_cons, if_pos (congrArg σ h), hff]
    · have h' : ¬ σ p.1 = σ k := fun hh => h (hσ.injective hh)
      simp only [mapAdjust, if_neg h, List.map_cons, if_neg h']
      rw [ih]

theorem map_mapErase {σ : Nat → Nat} (hσ : StrictMono σ) (d : Dag) (k : Nat) :
    mapDag σ (mapErase k d) = mapErase (σ k) (mapDag σ d) := by
  induction d with
  | nil => rfl
  | cons p rest ih =>
    simp only [mapDag] at ih ⊢
    by_cases h : p.1 = k
    · simp only [mapErase, if_pos h, List.map_cons, if_pos (congrArg σ h)]
    · have h' : ¬ σ p.1 = σ k := fun hh => h (hσ.injective hh)
      simp only [mapErase, if_neg h, List.map_cons, if_neg h']
      rw [ih]

theorem map_node_new {σ : Nat → Nat} (c : Nat) :
    mapNode σ (Node.new c) = Node.new (σ c) := rfl

theorem map_add_parent {σ : Nat → Nat} (hσ : StrictMono σ) (n : Node) (p : Nat) :
    mapNode σ (n.add_parent p) = (mapNode σ n).add_parent (σ p) := by
  unfold mapNode Node.add_parent
  simp only [map_setInsert hσ]

theorem map_add_child {σ : Nat → Nat} (hσ : StrictMono σ) (n : Node) (c : Nat) :
    mapNode σ (n.add_child c) = (mapNode σ n).add_child (σ c) := by
  unfold mapNode Node.add_child
  simp only [map_setInsert hσ]

theorem map_remove_parent {σ : Nat → Nat} (hσ : StrictMono σ) (n : Node) (p : Nat) :
    mapNode σ ((n.remove_parent p).1) = ((mapNode σ n).remove_parent (σ p)).1
    ∧ (n.remove_parent p).2 = ((mapNode σ n).remove_parent (σ p)).2 := by
  unfold mapNode Node.remove_parent
  exact ⟨by simp only [(map_setRemove hσ p n.parents).1],
    (map_setRemove hσ p n.parents).2⟩

theorem map_ensure {σ : Nat → Nat} (hσ : StrictMono σ) (d : Dag) (c : Nat) :
    mapDag σ (d.ensure c) = (mapDag σ d).ensure (σ c) := by
  unfold Dag.ensure
  rw [map_mapLookup hσ]
  cases hc : mapLookup d c with
  | none => simp [map_mapInsert hσ, map_node_new]
  | some n => simp

theorem map_nodeAt {σ : Nat → Nat} (hσ : StrictMono σ) (d : Dag) (c : Nat) :
    mapNode σ (d.nodeAt c) = (mapDag σ d).nodeAt (σ c) := by
  unfold Dag.nodeAt
  rw [map_mapLookup hσ]
  cases hc : mapLookup d c with
  | none => rfl
  | some n => rfl

theorem isEmpty_map {f : Nat → Nat} (l : List Nat) :
    (l.map f).isEmpty = l.isEmpty := by
  cases l <;> rfl

theorem map_insert_child {σ : Nat → Nat} (hσ : StrictMono σ) (d : Dag)
    (p : Option Nat) (c : Nat) :
    mapDag σ ((d.insert_child p c).1)
      = ((mapDag σ d).insert_child (p.map σ) (σ c)).1
    ∧ (d.insert_child p c).2 = ((mapDag σ d).insert_child (p.map σ) (σ c)).2 := by
  cases p with
  | none => exact ⟨map_ensure hσ d c, rfl⟩
  | some pk =>
    have hd2 : mapDag σ (mapAdjust c (fun n => n.add_parent pk) (d.ensure c))
        = mapAdjust (σ c) (fun n => n.add_parent (σ pk))
            ((mapDag σ d).ensure (σ c)) := by
      rw [@map_mapAdjust σ hσ (d.ensure c) c (fun n => n.add_parent pk)
        (fun n => n.add_parent (σ pk)) (fun n => map_add_parent hσ n pk),
        map_ensure hσ]
    have hflag :
        (mapLookup (mapAdjust (σ c) (fun n => n.add_parent (σ pk))
            ((mapDag σ d).ensure (σ c))) (σ pk)).isSome
        = (mapLookup (mapAdjust c (fun n => n.add_parent pk) (d.ensure c))
            pk).isSome := by
      rw [← hd2, map_mapLookup hσ]
      cases mapLookup (mapAdjust c (fun n => n.add_parent pk) (d.ensure c)) pk <;> rfl
    show mapDag σ ((Dag.insert_child d (some pk) c).1)
        = ((mapDag σ d).insert_child (some (σ pk)) (σ c)).1
      ∧ (Dag.insert_child d (some pk) c).2
        = ((mapDag σ d).insert_child (some (σ pk)) (σ c)).2
    simp only [Dag.insert_child]
    by_cases hf :
        (mapLookup (mapAdjust c (fun n => n.add_parent pk) (d.ensure c)) pk).isSome
          = true
    · rw [if_pos hf, if_pos (by rw [hflag]; exact hf)]
      refine ⟨?_, rfl⟩
      show mapDag σ (mapAdjust pk (fun n => n.add_child c)
          (mapAdjust c (fun n => n.add_parent pk) (d.ensure c))) = _
      rw [@map_mapAdjust σ hσ
        (mapAdjust c (fun n => n.add_parent pk) (d.ensure c)) pk
        (fun n => n.add_child c) (fun n => n.add_child (σ c))
        (fun n => map_add_child hσ n c), hd2]
    · rw [if_neg hf, if_neg (by rw [hflag]; exact hf)]
      exact ⟨hd2, rfl⟩

theorem map_insertTripStops {σ : Nat → Nat} (hσ : StrictMono σ) :
    ∀ (l : List Nat) (d : Dag) (p : Option Nat),
    mapDag σ ((insertTripStops d p l).1)
      = (insertTripStops (mapDag σ d) (p.map σ) (l.map σ)).1
    ∧ (insertTripStops d p l).2
      = (insertTripStops (mapDag σ d) (p.map σ) (l.map σ)).2 := by
  intro l
  induction l with
  | nil => intro d p; exact ⟨rfl, rfl⟩
  | cons s rest ih =>
    intro d p
    obtain ⟨h1, h2⟩ := map_insert_child hσ d p s
    simp only [insertTripStops, List.map_cons]
    by_cases hf : (d.insert_child p s).2 = true
    · rw [if_pos hf, if_pos (by rw [← h2]; exact hf)]
      have hrec := ih (d.insert_child p s).1 (some s)
      rw [h1] at hrec
      exact hrec
    · rw [if_neg hf, if_neg (by rw [← h2]; exact hf)]
      exact ⟨h1, rfl⟩

theorem map_buildDag {σ : Nat → Nat} (hσ : StrictMono σ) :
    ∀ (trips : List (List Nat)) (d : Dag),
    mapDag σ ((buildDag d trips).1)
      = (buildDag (mapDag σ d) (trips.map (List.map σ))).1
    ∧ (buildDag d trips).2 = (buildDag (mapDag σ d) (trips.map (List.map σ))).2 := by
  intro trips
  induction trips with
  | nil => intro d; exact ⟨rfl, rfl⟩
  | cons t rest ih =>
    intro d
    obtain ⟨h1, h2⟩ := map_insertTripStops hσ t d none
    simp only [show Option.map σ (none : Option Nat) = none from rfl] at h1 h2
    simp only [buildDag, List.map_cons]
    by_cases hf : (insertTripStops d none t).2 = true
    · rw [if_pos hf, if_pos (by rw [← h2]; exact hf)]
      have hrec := ih (insertTripStops d none t).1
      rw [h1] at hrec
      exact hrec
    · rw [if_neg hf, if_neg (by rw [← h2]; exact hf)]
      exact ⟨h1, rfl⟩

theorem mapDag_filter (σ : Nat → Nat) {p q : (Nat × Node) → Bool}
    (hpq : ∀ a, q (σ a.1, mapNode σ a.2) = p a) :
    ∀ (d : Dag), (mapDag σ d).filter q = mapDag σ (d.filter p) := by
  intro d
  induction d with
  | nil => rfl
  | cons a rest ih =>
    simp only [mapDag, List.map_cons, List.filter_cons, hpq a]
    simp only [mapDag] at ih
    by_cases h : p a = true
    · rw [if_pos h, if_pos h, List.map_cons, ih]
    · rw [if_neg h, if_neg h]
      exact ih

theorem map_filter_empty (σ : Nat → Nat) (d : Dag) :
    mapDag σ (d.filter (fun q => q.2.parents.isEmpty))
      = (mapDag σ d).filter (fun q => q.2.parents.isEmpty) :=
  (mapDag_filter σ (fun a => isEmpty_map a.2.parents) d).symm

theorem map_filter_nonempty (σ : Nat → Nat) (d : Dag) :
    mapDag σ (d.filter (fun q => !q.2.parents.isEmpty))
      = (mapDag σ d).filter (fun q => !q.2.parents.isEmpty) :=
  (mapDag_filter σ (fun a => by
      show (!(a.2.parents.map σ).isEmpty) = !a.2.parents.isEmpty
      rw [isEmpty_map]) d).symm

theorem map_processChildren {σ : Nat → Nat} (hσ : StrictMono σ) (idx : Nat) :
    ∀ (children : List Nat) (heads : List (Nat × Node)) (tails : Dag),
    processChildren (σ idx) (children.map σ) (mapDag σ heads) (mapDag σ tails)
      = (processChildren idx children heads tails).map
          (fun r => (mapDag σ r.1, mapDag σ r.2)) := by
  intro children
  induction children with
  | nil => intro heads tails; rfl
  | cons ch rest ih =>
    intro heads tails
    simp only [processChildren, List.map_cons]
    rw [map_mapLookup hσ]
    cases ht : mapLookup tails ch with
    | none => rfl
    | some tnode =>
      simp only [Option.map]
      obtain ⟨hrp1, hrp2⟩ := map_remove_parent hσ tnode idx
      by_cases hr : (tnode.remove_parent idx).2 = false
      · rw [if_pos hr, if_pos (hrp2.symm.trans hr)]
      · rw [if_neg hr, if_neg (fun hh => hr (hrp2.trans hh))]
        have hpar : ((mapNode σ tnode).remove_parent (σ idx)).1.parents
            = (tnode.remove_parent idx).1.parents.map σ := by
          rw [← hrp1]
          rfl
        have hpe : ((mapNode σ tnode).remove_parent (σ idx)).1.parents.isEmpty
            = (tnode.remove_parent idx).1.parents.isEmpty := by
          rw [hpar]
          exact isEmpty_map _
        by_cases hpe2 : (tnode.remove_parent idx).1.parents.isEmpty = true
        · rw [if_pos hpe2, if_pos (hpe.trans hpe2)]
          rw [← map_mapErase hσ]
          have hh : ((σ ch, ((mapNode σ tnode).remove_parent (σ idx)).1)
                :: mapDag σ heads)
              = mapDag σ (((ch, (tnode.remove_parent idx).1)) :: heads) := by
            simp only [mapDag, List.map_cons, hrp1]
          rw [hh]
          exact ih _ _
        · rw [if_neg hpe2, if_neg (fun hh => hpe2 (hpe.symm.trans hh))]
          have hadj : mapAdjust (σ ch)
                (fun _ => ((mapNode σ tnode).remove_parent (σ idx)).1)
                (mapDag σ tails)
              = mapDag σ (mapAdjust ch (fun _ => (tnode.remove_parent idx).1)
                  tails) := by
            rw [@map_mapAdjust σ hσ tails ch
              (fun _ => (tnode.remove_parent idx).1)
              (fun _ => ((mapNode σ tnode).remove_parent (σ idx)).1)
              (fun n => hrp1)]
          rw [hadj]
          exact ih _ _

theorem map_flattenLoop {σ : Nat → Nat} (hσ : StrictMono σ) :
    ∀ (fuel : Nat) (heads : List (Nat × Node)) (tails : Dag) (out : List Nat),
    flattenLoop fuel (mapDag σ heads) (mapDag σ tails) (out.map σ)
      = (flattenLoop fuel heads tails out).mapStops σ := by
  intro fuel
  induction fuel with
  | zero => intro heads tails out; rfl
  | succ fuel ih =>
    intro heads tails out
    cases heads with
    | nil =>
      show flattenLoop (fuel + 1) [] (mapDag σ tails) (out.map σ) = _
      simp only [flattenLoop]
      have he : (mapDag σ tails).isEmpty = tails.isEmpty := by
        cases tails <;> rfl
      rw [he]
      cases tails.isEmpty <;> rfl
    | cons hd hs =>
      obtain ⟨idx, node⟩ := hd
      show flattenLoop (fuel + 1) ((σ idx, mapNode σ node) :: mapDag σ hs)
          (mapDag σ tails) (out.map σ) = _
      simp only [flattenLoop]
      rw [show (mapNode σ node).children = node.children.map σ from rfl,
        map_processChildren hσ]
      cases hp : processChildren idx node.children hs tails with
      | none => rfl
      | some r =>
        obtain ⟨h2, t2⟩ := r
        simp only [Option.map]
        have hout : (out.map σ) ++ [(mapNode σ node).value]
            = (out ++ [node.value]).map σ := by
          simp [mapNode]
        rw [hout]
        exact ih h2 t2 (out ++ [node.value])

theorem map_flatten {σ : Nat → Nat} (hσ : StrictMono σ) (G : Dag) :
    (mapDag σ G).flatten = G.flatten.mapStops σ := by
  show flattenLoop (2 * (mapDag σ G).length + 1)
      (((mapDag σ G).filter (fun q => q.2.parents.isEmpty)).reverse)
      ((mapDag σ G).filter (fun q => !q.2.parents.isEmpty)) []
    = MergeResult.mapStops σ (flattenLoop (2 * G.length + 1)
      ((G.filter (fun q => q.2.parents.isEmpty)).reverse)
      (G.filter (fun q => !q.2.parents.isEmpty)) [])
  have hlen : (mapDag σ G).length = G.length := List.length_map _ _
  have hrev : ((mapDag σ G).filter (fun q => q.2.parents.isEmpty)).reverse
      = mapDag σ ((G.filter (fun q => q.2.parents.isEmpty)).reverse) := by
    rw [← map_filter_empty]
    exact (List.map_reverse _ _).symm
  have hne : (mapDag σ G).filter (fun q => !q.2.parents.isEmpty)
      = mapDag σ (G.filter (fun q => !q.2.parents.isEmpty)) :=
    (map_filter_nonempty σ G).symm
  rw [hlen, hrev, hne,
    show ([] : List Nat) = ([] : List Nat).map σ from rfl]
  exact map_flattenLoop hσ _ _ _ []

/-- C4 amended: the consolidated output is equivariant under relabelings
of the stop addresses that preserve their relative order — for such a σ,
running merge_trips on the relabeled trips gives exactly the relabeled
result.  Combined with the counterexample below, the output depends on
the addresses only through their relative order, and a run is
deterministic for a fixed address assignment. -/
theorem claim_C4_order_preserving_relabel (σ : Nat → Nat) (hσ : StrictMono σ)
    (trips : List (List Nat)) :
    mergeTrips (trips.map (List.map σ)) = (mergeTrips trips).mapStops σ := by
  obtain ⟨h1, h2⟩ := map_buildDag hσ trips Dag.new
  simp only [show mapDag σ Dag.new = Dag.new from rfl] at h1 h2
  show (if (buildDag Dag.new (trips.map (List.map σ))).2 = true
      then (buildDag Dag.new (trips.map (List.map σ))).1.flatten
      else MergeResult.err .parentNotFound) = _
  show _ = MergeResult.mapStops σ (if (buildDag Dag.new trips).2 = true
      then (buildDag Dag.new trips).1.flatten
      else MergeResult.err .parentNotFound)
  by_cases hf : (buildDag Dag.new trips).2 = true
  · rw [if_pos hf, if_pos (by rw [← h2]; exact hf)]
    rw [← h1]
    exact map_flatten hσ _
  · rw [if_neg hf, if_neg (by rw [← h2]; exact hf)]
    rfl

theorem claim_C4_witness :
    mergeTrips (([[0], [1]] : List (List Nat)).map (List.map fun n => n + 1))
      = (mergeTrips [[0], [1]]).mapStops (fun n => n + 1) :=
  claim_C4_order_preserving_relabel (fun n => n + 1)
    (fun x y h => by show x + 1 < y + 1; omega) [[0], [1]]

/-- C4 counterexample: consolidation is not address-independent — there
is an injective relabeling of addresses under which the same trips
consolidate to a differently ordered output, because the tie-break among
simultaneous heads follows the address order (the BTreeMap key order of
PtrKey), not a first-encounter sequence number.  Here two single-stop
trips come out as [1, 0] whichever of the two stops gets address 0, so
the relabeled run is not the relabeling of the original run. -/
theorem claim_C4_counterexample :
    ¬ (∀ (trips : List (List Nat)) (out : List Nat) (σ : Nat → Nat),
        Function.Injective σ → mergeTrips trips = .ok out →
        mergeTrips (trips.map (List.map σ)) = .ok (out.map σ)) := by
  intro h
  have hinj : Function.Injective
      (fun n : Nat => if n = 0 then 1 else if n = 1 then 0 else n) := by
    intro x y hxy
    by_cases hx0 : x = 0 <;> by_cases hy0 : y = 0 <;>
      by_cases hx1 : x = 1 <;> by_cases hy1 : y = 1 <;> simp_all
  have h2 := h [[0], [1]] [1, 0] _ hinj (by decide)
  exact absurd h2 (by decide)

theorem adj_pair_iff {u v x y : Nat} : Adj [u, v] x y ↔ (x = u ∧ y = v) := by
  rw [adj_cons_iff]
  constructor
  · rintro (h | h)
    · exact h
    · exact absurd h adj_singleton
  · exact Or.inl

theorem adj3_iff {u v w x y : Nat} :
    Adj [u, v, w] x y ↔ (x = u ∧ y = v) ∨ (x = v ∧ y = w) := by
  rw [adj_cons_iff, adj_pair_iff]

theorem adj4_iff {u v w z x y : Nat} :
    Adj [u, v, w, z] x y ↔ (x = u ∧ y = v) ∨ (x = v ∧ y = w) ∨ (x = w ∧ y = z) := by
  rw [adj_cons_iff, adj3_iff]

/-- C5: branch merge example — a group holding exactly the trips
[a, b, c] and [a, b, d, c] over four distinct stop instances consolidates
successfully to exactly [a, b, d, c], whatever the four addresses are. -/
theorem claim_C5_branch_merge (a b c d : Nat) (hab : a ≠ b) (hac : a ≠ c)
    (had : a ≠ d) (hbc : b ≠ c) (hbd : b ≠ d) (hcd : c ≠ d) :
    mergeTrips [[a, b, c], [a, b, d, c]] = .ok [a, b, d, c] := by
  have hR : ∀ x y, (∃ t ∈ [[a, b, c], [a, b, d, c]], Adj t x y) →
      (x = a ∧ y = b) ∨ (x = b ∧ y = c) ∨ (x = b ∧ y = d) ∨ (x = d ∧ y = c) := by
    rintro x y ⟨t, ht, hadj⟩
    rcases List.mem_cons.1 ht with rfl | ht
    · rcases adj3_iff.1 hadj with h | h
      · exact Or.inl h
      · exact Or.inr (Or.inl h)
    · rcases List.mem_cons.1 ht with rfl | ht
      · rcases adj4_iff.1 hadj with h | h | h
        · exact Or.inl h
        · exact Or.inr (Or.inr (Or.inl h))
        · exact Or.inr (Or.inr (Or.inr h))
      · simp at ht
  have hnocycle : ¬ ∃ k, Relation.TransGen
      (fun x y => ∃ t ∈ [[a, b, c], [a, b, d, c]], Adj t x y) k k := by
    have ra : (if a = a then 0 else if a = b then 1 else if a = d then 2 else 3)
        = (0 : Nat) := by simp
    have rb : (if b = a then 0 else if b = b then 1 else if b = d then 2 else 3)
        = (1 : Nat) := by simp [Ne.symm hab]
    have rd2 : (if d = a then 0 else if d = b then 1 else if d = d then 2 else 3)
        = (2 : Nat) := by simp [Ne.symm had, Ne.symm hbd]
    have rc : (if c = a then 0 else if c = b then 1 else if c = d then 2 else 3)
        = (3 : Nat) := by simp [Ne.symm hac, Ne.symm hbc, hcd]
    have hrank : ∀ x y, (∃ t ∈ [[a, b, c], [a, b, d, c]], Adj t x y) →
        (if x = a then 0 else if x = b then 1 else if x = d then 2 else 3 : Nat)
        < (if y = a then 0 else if y = b then 1 else if y = d then 2 else 3) := by
      intro x y h
      rcases hR x y h with ⟨rfl, rfl⟩ | ⟨rfl, rfl⟩ | ⟨rfl, rfl⟩ | ⟨rfl, rfl⟩
      · rw [ra, rb]; omega
      · rw [rb, rc]; omega
      · rw [rb, rd2]; omega
      · rw [rd2, rc]; omega
    rintro ⟨k, hk⟩
    have hmono : ∀ x y, Relation.TransGen
        (fun x y => ∃ t ∈ [[a, b, c], [a, b, d, c]], Adj t x y) x y →
        (if x = a then 0 else if x = b then 1 else if x = d then 2 else 3 : Nat)
        < (if y = a then 0 else if y = b then 1 else if y = d then 2 else 3) := by
      intro x y h
      induction h with
      | single h => exact hrank _ _ h
      | tail _ h ih => exact lt_trans ih (hrank _ _ h)
    exact absurd (hmono k k hk) (lt_irrefl _)
  rcases mergeTrips_cases [[a, b, c], [a, b, d, c]] with ⟨out, hout⟩ | herr
  · obtain ⟨hnd, hmem, horder⟩ := mergeTrips_ok_facts hout
    have hBab : Before a b out :=
      horder [a, b, c] (by simp) a b ⟨0, 1, by omega, by simp, by simp⟩
    have hBbd : Before b d out :=
      horder [a, b, d, c] (by simp) b d ⟨1, 2, by omega, by simp, by simp⟩
    have hBdc : Before d c out :=
      horder [a, b, d, c] (by simp) d c ⟨2, 3, by omega, by simp, by simp⟩
    obtain ⟨i1, i2, h12, ha1, hb2⟩ := hBab
    obtain ⟨j2, i3, h23, hb2', hd3⟩ := hBbd
    obtain ⟨j3, i4, h34, hd3', hc4⟩ := hBdc
    have hi2 : i2 = j2 :=
      List.getElem?_inj (List.getElem?_eq_some.1 hb2).1 hnd (hb2.trans hb2'.symm)
    have hi3 : i3 = j3 :=
      List.getElem?_inj (List.getElem?_eq_some.1 hd3).1 hnd (hd3.trans hd3'.symm)
    have hdc : d ≠ c := fun h => hcd h.symm
    have hperm : out.Perm [a, b, d, c] := by
      refine (List.perm_ext_iff_of_nodup hnd ?_).2 ?_
      · simp [hab, hac, had, hbc, hbd, hdc]
      · intro s
        rw [hmem s]
        constructor
        · rintro ⟨t, ht, hst⟩
          rcases List.mem_cons.1 ht with rfl | ht
          · simp at hst
            rcases hst with rfl | rfl | rfl
            · simp
            · simp
            · simp
          · rcases List.mem_cons.1 ht with rfl | ht
            · exact hst
            · simp at ht
        · intro hs
          simp at hs
          rcases hs with h | h | h | h
          · exact ⟨[a, b, c], by simp, by simp [h]⟩
          · exact ⟨[a, b, c], by simp, by simp [h]⟩
          · exact ⟨[a, b, d, c], by simp, by simp [h]⟩
          · exact ⟨[a, b, c], by simp, by simp [h]⟩
    have hlen : out.length = 4 := by
      rw [hperm.length_eq]
      rfl
    have hb4 : i4 < 4 := by
      rw [← hlen]
      exact (List.getElem?_eq_some.1 hc4).1
    have hidx : i1 = 0 ∧ i2 = 1 ∧ i3 = 2 ∧ i4 = 3 := by omega
    obtain ⟨e0, e1, e2, e3⟩ := hidx
    rw [e0] at ha1
    rw [e1] at hb2
    rw [e2] at hd3
    rw [e3] at hc4
    rw [hout]
    congr 1
    apply List.ext_getElem?
    intro n
    rcases Nat.lt_or_ge n 4 with hn | hn
    · interval_cases n
      · rw [ha1]; rfl
      · rw [hb2]; rfl
      · rw [hd3]; rfl
      · rw [hc4]; rfl
    · rw [List.getElem?_eq_none (by omega : out.length ≤ n),
        List.getElem?_eq_none (by simp; omega)]
  · rw [mergeTrips_cycle_iff] at herr
    exact absurd herr hnocycle

theorem claim_C5_witness : mergeTrips [[0, 1, 2], [0, 1, 3, 2]] = .ok [0, 1, 3, 2] :=
  claim_C5_branch_merge 0 1 2 3 (by decide) (by decide) (by decide) (by decide)
    (by decide) (by decide)

/-- C6: driver fail-fast — if a (route, direction) group's consolidation
fails with a cycle, stops_by_route returns an error naming a failing
group's route and direction, and returns no mapping at all (no partial
per-group output, nothing from successfully consolidated groups). -/
theorem claim_C6_fail_fast (trips : List GTrip) (args : Args) (rd : RouteDir)
    (ts : List GTrip) (hmem : (rd, ts) ∈ tripsByRoute args trips)
    (hfail : mergeTrips (ts.map GTrip.stops) = .err .cycle) :
    ∃ rd2 ts2, stops_by_route trips args = .err rd2 .cycle
      ∧ (rd2, ts2) ∈ tripsByRoute args trips
      ∧ mergeTrips (ts2.map GTrip.stops) = .err .cycle
      ∧ ∀ m, stops_by_route trips args ≠ .ok m := by
  obtain ⟨rd2, e2, ts2, hrun, hmem2, hfail2⟩ :=
    runGroups_err (tripsByRoute args trips) [] hmem hfail
  have he2 : e2 = .cycle := by
    cases e2 with
    | cycle => rfl
    | parentNotFound =>
      exfalso
      rcases mergeTrips_cases (ts2.map GTrip.stops) with ⟨o, ho⟩ | ho <;>
        rw [ho] at hfail2 <;> simp at hfail2
  subst he2
  refine ⟨rd2, ts2, hrun, hmem2, hfail2, fun m hcontra => ?_⟩
  rw [show stops_by_route trips args = runGroups (tripsByRoute args trips) [] from rfl,
    hrun] at hcontra
  cases hcontra

theorem claim_C6_witness :
    ∃ rd2 ts2,
      stops_by_route [GTrip.mk "r" (some .inbound) Option.none [0, 1, 0]]
        ⟨false, false⟩ = .err rd2 .cycle
      ∧ (rd2, ts2) ∈ tripsByRoute ⟨false, false⟩
          [GTrip.mk "r" (some .inbound) Option.none [0, 1, 0]]
      ∧ mergeTrips (ts2.map GTrip.stops) = .err .cycle
      ∧ ∀ m, stops_by_route [GTrip.mk "r" (some .inbound) Option.none [0, 1, 0]]
          ⟨false, false⟩ ≠ .ok m :=
  claim_C6_fail_fast [GTrip.mk "r" (some .inbound) Option.none [0, 1, 0]]
    ⟨false, false⟩ ⟨some "r", .inbound⟩
    [GTrip.mk "r" (some .inbound) Option.none [0, 1, 0]] (by decide) (by decide)

/-- C8: grouping order — the grouped mapping's (route id, direction) keys
are strictly sorted in the key's total order (route id first, then
direction ordinal), the key sequence does not depend on the order the
trips were supplied in, and on success the consolidated mapping exposes
exactly those keys in that order. -/
theorem claim_C8_grouping_order (args : Args) (trips trips2 : List GTrip)
    (hp : trips.Perm trips2) :
    (mapKeys (tripsByRoute args trips)).Pairwise (· < ·)
    ∧ mapKeys (tripsByRoute args trips) = mapKeys (tripsByRoute args trips2)
    ∧ (∀ a b : RouteDir, a < b ↔ a.idKey < b.idKey
        ∨ (a.route_id = b.route_id ∧ a.direction.toNat < b.direction.toNat))
    ∧ (∀ m, stops_by_route trips args = .ok m →
        mapKeys m = mapKeys (tripsByRoute args trips)) := by
  refine ⟨tripsByRoute_sorted args trips, tripsByRoute_keys_perm args hp,
    RouteDir.lt_iff, ?_⟩
  intro m hm
  have hs : (mapKeys ([] : List (RouteDir × List Nat)) ++
      mapKeys (tripsByRoute args trips)).Pairwise (· < ·) := by
    simpa using tripsByRoute_sorted args trips
  have := runGroups_ok_keys (tripsByRoute args trips) [] hs m hm
  simpa using this

theorem claim_C8_witness :
    (mapKeys (tripsByRoute ⟨false, false⟩
        [GTrip.mk "b" (some .inbound) Option.none [0],
         GTrip.mk "a" Option.none Option.none [1]])).Pairwise (· < ·)
    ∧ mapKeys (tripsByRoute ⟨false, false⟩
        [GTrip.mk "b" (some .inbound) Option.none [0],
         GTrip.mk "a" Option.none Option.none [1]])
      = mapKeys (tripsByRoute ⟨false, false⟩
        [GTrip.mk "a" Option.none Option.none [1],
         GTrip.mk "b" (some .inbound) Option.none [0]])
    ∧ (∀ a b : RouteDir, a < b ↔ a.idKey < b.idKey
        ∨ (a.route_id = b.route_id ∧ a.direction.toNat < b.direction.toNat))
    ∧ (∀ m, stops_by_route
        [GTrip.mk "b" (some .inbound) Option.none [0],
         GTrip.mk "a" Option.none Option.none [1]] ⟨false, false⟩ = .ok m →
        mapKeys m = mapKeys (tripsByRoute ⟨false, false⟩
          [GTrip.mk "b" (some .inbound) Option.none [0],
           GTrip.mk "a" Option.none Option.none [1]])) :=
  claim_C8_grouping_order ⟨false, false⟩
    [GTrip.mk "b" (some .inbound) Option.none [0],
     GTrip.mk "a" Option.none Option.none [1]]
    [GTrip.mk "a" Option.none Option.none [1],
     GTrip.mk "b" (some .inbound) Option.none [0]]
    (List.Perm.swap _ _ _)

example : mergeTrips [[0], [1]] = .ok [1, 0] := by decide

example : mergeTrips [[1], [0]] = .ok [1, 0] := by decide

end GtfsUtils
